import Mathlib

/-!
Verification of the DIDHub API client generator (Python sources under
`utils/api_client_generator/`): a shallow embedding of the parser
(`parser.py`), the generator (`generator.py`), the data model
(`models.py`) and the configuration (`config.py`), together with
theorems about the embedded functions.

Strings are embedded as `List Char` (written `Str` below); Python's
string operations (strip, split, startswith, ...) are given faithful
counterparts on `Str`.
-/

set_option maxRecDepth 4000

/-- Python strings are modelled as lists of characters. -/
abbrev Str := List Char

/-- Conversion from a Lean string literal to the embedded string type. -/
def str (s : String) : Str := s.data

/-- Python `s.startswith(p)`. -/
def strStarts (s p : Str) : Bool := p.isPrefixOf s

/-- Python `s.endswith(p)`. -/
def strEnds (s p : Str) : Bool := p.isSuffixOf s

/-- Python `c.isspace()` for the ASCII whitespace relevant here. -/
def isSpaceChar (c : Char) : Bool := c.isWhitespace

/-- Python `s.strip()`: remove leading and trailing whitespace. -/
def strip (s : Str) : Str :=
  ((s.dropWhile isSpaceChar).reverse.dropWhile isSpaceChar).reverse

/-- Python `sub in s` for a single-character `sub`. -/
def strHasChar (s : Str) (c : Char) : Bool := s.contains c

/-- Python `sub in s` (substring containment) for an arbitrary substring. -/
def strHasSub (s sub : Str) : Bool :=
  (List.range (s.length + 1)).any (fun i => sub.isPrefixOf (s.drop i))

/-- Python `s.split(sep)` for a one-character separator. -/
def splitOnChar (c : Char) (s : Str) : List Str := s.splitOn c

/-- Python `sep.join(parts)` for a one-character separator (used to build
concrete inputs in theorems). -/
def joinWithChar (c : Char) (parts : List Str) : Str := [c].intercalate parts

/-!  ## Data model (`models.py`)  -/

/-- One entry of `TypeDefinition.fields`:
`(field_name, rust_type, serialized_name, is_optional, is_flatten)`. -/
structure FieldEntry where
  fieldName : Str
  rustType : Str
  serializedName : Str
  isOptional : Bool
  isFlatten : Bool
deriving DecidableEq, Repr

/-- One entry of `TypeDefinition.variants`:
`(variant_name, serialized_name, has_payload, payload_type)`. -/
structure VariantEntry where
  variantName : Str
  serializedName : Str
  hasPayload : Bool
  payloadType : Option Str
deriving DecidableEq, Repr

/-- `models.TypeDefinition`. -/
structure TypeDefinition where
  name : Str
  rustPath : Str
  modulePath : Str
  originalName : Str
  fields : List FieldEntry
  isGeneric : Bool := false
  typeParams : List Str := []
  isEnum : Bool := false
  variants : List VariantEntry := []
  renameAll : Option Str := none
  enumStyle : Option Str := none
  enumTag : Option Str := none
  enumContent : Option Str := none
deriving DecidableEq, Repr

/-- `models.Endpoint`. -/
structure Endpoint where
  path : Str
  method : Str
  handler : Str
  authRequired : Bool := false
  isAdmin : Bool := false
  queryType : Option Str := none
  bodyType : Option Str := none
  bodyOptional : Bool := false
  responseType : Option Str := none
  responseHint : Option Str := none
  bodyHint : Option Str := none
deriving DecidableEq, Repr

/-- `models.ApiModule`. -/
structure ApiModule where
  name : Str
  endpoints : List Endpoint
deriving DecidableEq, Repr

/-!  ## Final type-definition selection (`parser.py`, `parse_routes`)

`parse_routes` deduplicates the discovered definitions by fully-qualified
path (`unique_type_defs.setdefault(td.rust_path, td)`, keeping the first
occurrence), filters them against the set of referenced type names, and
falls back to the whole deduplicated list when the filter comes up empty. -/

/-- Deduplication by `rust_path` with an accumulator of already-seen
paths, keeping the first occurrence of each path in first-occurrence
order (Python's insertion-ordered `dict.setdefault`). -/
def dedupByPathAux (seen : List Str) : List TypeDefinition → List TypeDefinition
  | [] => []
  | td :: rest =>
    if seen.contains td.rustPath then dedupByPathAux seen rest
    else td :: dedupByPathAux (td.rustPath :: seen) rest

/-- Deduplication by `rust_path`, keeping the first occurrence of each
path. -/
def dedupByPath (l : List TypeDefinition) : List TypeDefinition :=
  dedupByPathAux [] l

/-- The retention test of `parse_routes`: a definition is kept when its
original name, its (currently assigned) output name, or its
fully-qualified path is among the referenced types. -/
def referencedPred (refs : List Str) (td : TypeDefinition) : Bool :=
  refs.contains td.originalName || refs.contains td.name || refs.contains td.rustPath

/-- Lines 74–86 of `parse_routes`: dedup, filter by `referencedPred`, and
fall back to every deduplicated definition when the filter is empty. -/
def selectTypeDefinitions (allDefs : List TypeDefinition) (refs : List Str) :
    List TypeDefinition :=
  let uniq := dedupByPath allDefs
  let filtered := uniq.filter (referencedPred refs)
  if filtered = [] then uniq else filtered

theorem dedupByPath_nil_iff (l : List TypeDefinition) :
    dedupByPath l = [] ↔ l = [] := by
  cases l with
  | nil => simp [dedupByPath, dedupByPathAux]
  | cons td rest => simp [dedupByPath, dedupByPathAux]

/-- C7: Every definition in the final output set either satisfies the
reference-closure membership test (original name, assigned name, or
fully-qualified path among the referenced types) or the filter came up
empty; when the filter is empty every deduplicated definition is
retained; and the output is empty exactly when no definitions were
discovered at all. -/
theorem selectTypeDefinitions_spec (allDefs : List TypeDefinition) (refs : List Str) :
    (∀ td ∈ selectTypeDefinitions allDefs refs,
      (refs.contains td.originalName || refs.contains td.name
        || refs.contains td.rustPath) = true
      ∨ (dedupByPath allDefs).filter (referencedPred refs) = [])
    ∧ ((dedupByPath allDefs).filter (referencedPred refs) = [] →
        selectTypeDefinitions allDefs refs = dedupByPath allDefs)
    ∧ (selectTypeDefinitions allDefs refs = [] ↔ allDefs = []) := by
  refine ⟨?_, ?_, ?_⟩
  · intro td htd
    by_cases h : (dedupByPath allDefs).filter (referencedPred refs) = []
    · exact Or.inr h
    · left
      simp only [selectTypeDefinitions, if_neg h] at htd
      exact (List.mem_filter.mp htd).2
  · intro h
    simp [selectTypeDefinitions, h]
  · constructor
    · intro h
      by_cases hf : (dedupByPath allDefs).filter (referencedPred refs) = []
      · simp only [selectTypeDefinitions, if_pos hf] at h
        exact (dedupByPath_nil_iff allDefs).mp h
      · simp only [selectTypeDefinitions, if_neg hf] at h
        exact absurd h hf
    · intro h
      subst h
      simp [selectTypeDefinitions, dedupByPath, dedupByPathAux, List.filter]

/-- Concrete witness for C7: with one discovered definition whose original
name is referenced, the output retains it; the hypotheses of
`selectTypeDefinitions_spec` are discharged at that input. -/
def sampleTd : TypeDefinition :=
  { name := str "ApiUserOut"
    rustPath := str "crate::models::UserOut"
    modulePath := str "crate::models"
    originalName := str "UserOut"
    fields := [] }

theorem selectTypeDefinitions_spec_witness :
    ([(str "UserOut")].contains sampleTd.originalName
      || [(str "UserOut")].contains sampleTd.name
      || [(str "UserOut")].contains sampleTd.rustPath) = true
    ∨ (dedupByPath [sampleTd]).filter (referencedPred [str "UserOut"]) = [] :=
  (selectTypeDefinitions_spec [sampleTd] [str "UserOut"]).1 sampleTd (by decide)

/-!  ## Module assignment (`parser.py`, `_determine_module_from_path`,
`config.MODULE_MAP`) and module grouping (`parse_routes`).  -/

/-- Python `path.strip('/')`. -/
def stripSlashes (s : Str) : Str :=
  ((s.dropWhile (· = '/')).reverse.dropWhile (· = '/')).reverse

/-- `config.MODULE_MAP`, in source order. -/
def moduleMap : List (Str × Str) :=
  [ (str "alters", str "Alter")
  , (str "groups", str "Group")
  , (str "systems", str "Subsystem")
  , (str "subsystems", str "Subsystem")
  , (str "me", str "Users")
  , (str "upload", str "Files")
  , (str "uploads", str "Files")
  , (str "assets", str "Files")
  , (str "auth", str "Users")
  , (str "oidc", str "OIDC")
  , (str "password-reset", str "Users")
  , (str "health", str "misc")
  , (str "metrics", str "misc")
  , (str "s", str "misc")
  , (str "posts", str "Post")
  , (str "pdf", str "Report")
  , (str "users", str "Admin")
  , (str "system-requests", str "Admin")
  , (str "settings", str "Admin")
  , (str "admin", str "Admin")
  , (str "audit", str "Admin")
  , (str "housekeeping", str "Admin")
  , (str "version", str "misc")
  , (str "debug", str "misc")
  ]

/-- Python `MODULE_MAP.get(first_part, 'misc')`. -/
def moduleMapGet (k : Str) : Str :=
  match moduleMap.find? (fun p => p.1 = k) with
  | some p => p.2
  | none => str "misc"

/-- `_determine_module_from_path`. -/
def determineModuleFromPath (path : Str) (isAdmin : Bool) : Str :=
  if isAdmin then str "Admin"
  else
    let pathParts := splitOnChar '/' (stripSlashes path)
    if pathParts.isEmpty ∨ pathParts.headD [] = [] then str "misc"
    else
      let firstPart := pathParts.headD []
      if firstPart = str "alters" ∧ pathParts.length > 1 then str "Alter"
      else if firstPart = str "groups" ∧ pathParts.length > 1 then str "Group"
      else if firstPart = str "systems" ∧ pathParts.length > 1 then str "Subsystem"
      else if firstPart = str "subsystems" ∧ pathParts.length > 1 then str "Subsystem"
      else if firstPart = str "me" ∧ pathParts.length > 1 then str "Users"
      else if firstPart = str "pdf" ∧ pathParts.length > 1 then str "Report"
      else if firstPart ∈ [str "users", str "system-requests", str "settings",
          str "admin", str "audit", str "housekeeping"] then str "Admin"
      else moduleMapGet firstPart

/-- The module key under which `_parse_route_file` files an endpoint. -/
def endpointModuleKey (e : Endpoint) : Str :=
  determineModuleFromPath e.path e.isAdmin

/-- First-occurrence order of the module keys of a list of endpoints
(the key order of the insertion-ordered `defaultdict`). -/
def moduleKeysAux (seen : List Str) : List Endpoint → List Str
  | [] => []
  | e :: rest =>
    let k := endpointModuleKey e
    if seen.contains k then moduleKeysAux seen rest
    else k :: moduleKeysAux (k :: seen) rest

/-- The grouping of endpoints by module key performed by
`parse_routes` (`modules[module_name].append(endpoint)`). -/
def groupEndpoints (eps : List Endpoint) : List (Str × List Endpoint) :=
  (moduleKeysAux [] eps).map
    (fun k => (k, eps.filter (fun e => endpointModuleKey e = k)))

/-- Python string `<=` (lexicographic by code point), used as the sort
order for module names. -/
def strLe : Str → Str → Bool
  | [], _ => true
  | _ :: _, [] => false
  | a :: as, b :: bs => if a = b then strLe as bs else decide (a < b)

/-- The tail of `parse_routes`: turn the non-`misc` groups into
`ApiModule`s and sort them by name. -/
def buildApiModules (eps : List Endpoint) : List ApiModule :=
  ((groupEndpoints eps).filterMap
    (fun g => if g.1 = str "misc" then none else some (ApiModule.mk g.1 g.2))).mergeSort
    (fun a b => strLe a.name b.name)

/-- The keys of the `paths` object of `generate_openapi`, in insertion
order: one entry per distinct endpoint path across the modules. -/
def openapiPathKeysAux (seen : List Str) : List Endpoint → List Str
  | [] => []
  | e :: rest =>
    if seen.contains e.path then openapiPathKeysAux seen rest
    else e.path :: openapiPathKeysAux (e.path :: seen) rest

/-- Path keys of the emitted interface-description document. -/
def openapiPathKeys (modules : List ApiModule) : List Str :=
  openapiPathKeysAux [] (modules.flatMap (fun m => m.endpoints))

theorem mem_openapiPathKeysAux (seen : List Str) (eps : List Endpoint) (p : Str) :
    p ∈ openapiPathKeysAux seen eps → ∃ e ∈ eps, e.path = p := by
  induction eps generalizing seen with
  | nil => intro h; simp [openapiPathKeysAux] at h
  | cons e rest ih =>
    intro h
    simp only [openapiPathKeysAux] at h
    by_cases hc : seen.contains e.path
    · simp only [if_pos hc] at h
      obtain ⟨e', he', hp⟩ := ih _ h
      exact ⟨e', List.mem_cons_of_mem _ he', hp⟩
    · simp only [if_neg hc, List.mem_cons] at h
      rcases h with h | h
      · exact ⟨e, List.mem_cons_self _ _, h.symm⟩
      · obtain ⟨e', he', hp⟩ := ih _ h
        exact ⟨e', List.mem_cons_of_mem _ he', hp⟩

/-- C10: An endpoint whose path is assigned to the `misc` module — for
example `/health`, `/metrics`, `/version`, `/debug`, or any path whose
first segment is absent from the module lookup table — appears in none
of the returned API modules, and every path entry of the emitted
interface-description document originates from an endpoint of a
returned (non-`misc`) module. -/
theorem misc_endpoints_excluded :
    (determineModuleFromPath (str "/health") false = str "misc"
      ∧ determineModuleFromPath (str "/metrics") false = str "misc"
      ∧ determineModuleFromPath (str "/version") false = str "misc"
      ∧ determineModuleFromPath (str "/debug") false = str "misc"
      ∧ determineModuleFromPath (str "/no-such-area/x") false = str "misc")
    ∧ (∀ (eps : List Endpoint) (e : Endpoint),
        endpointModuleKey e = str "misc" →
        ∀ m ∈ buildApiModules eps, e ∉ m.endpoints)
    ∧ (∀ (modules : List ApiModule) (p : Str),
        p ∈ openapiPathKeys modules →
        ∃ m ∈ modules, ∃ ep ∈ m.endpoints, ep.path = p) := by
  refine ⟨by decide, ?_, ?_⟩
  · intro eps e hkey m hm hmem
    have hm' : m ∈ (groupEndpoints eps).filterMap
        (fun g => if g.1 = str "misc" then none else some (ApiModule.mk g.1 g.2)) := by
      have hperm := List.mergeSort_perm
        ((groupEndpoints eps).filterMap
          (fun g => if g.1 = str "misc" then none else some (ApiModule.mk g.1 g.2)))
        (fun a b => strLe a.name b.name)
      exact hperm.mem_iff.mp hm
    obtain ⟨g, hg, hgm⟩ := List.mem_filterMap.mp hm'
    by_cases hmisc : g.1 = str "misc"
    · simp [hmisc] at hgm
    · simp only [if_neg hmisc, Option.some.injEq] at hgm
      obtain ⟨k, _, hk⟩ := List.mem_map.mp hg
      have hends : m.endpoints = eps.filter (fun e => endpointModuleKey e = k) := by
        rw [← hgm, ← hk]
      have hname : m.name = k := by
        rw [← hgm, ← hk]
      rw [hends] at hmem
      have hkeq : endpointModuleKey e = k :=
        of_decide_eq_true (List.mem_filter.mp hmem).2
      apply hmisc
      rw [← hk]
      simpa using (hkeq ▸ hkey : (k = str "misc"))
  · intro modules p hp
    obtain ⟨e, he, hep⟩ := mem_openapiPathKeysAux [] _ p hp
    obtain ⟨m, hm, hem⟩ := List.mem_flatMap.mp he
    exact ⟨m, hm, e, hem, hep⟩

/-- Concrete witness for C10: a `/health` endpoint is excluded from the
modules built from a two-endpoint parse, and the hypotheses of
`misc_endpoints_excluded` are discharged at that input. -/
def healthEndpoint : Endpoint :=
  { path := str "/health", method := str "GET", handler := str "crate::routes::health" }

def altersEndpoint : Endpoint :=
  { path := str "/alters/{id}", method := str "GET"
    handler := str "crate::routes::alters::get_alter" }

theorem misc_endpoints_excluded_witness :
    ∀ m ∈ buildApiModules [healthEndpoint, altersEndpoint],
      healthEndpoint ∉ m.endpoints :=
  misc_endpoints_excluded.2.1 [healthEndpoint, altersEndpoint] healthEndpoint (by decide)

/-!  ## Generic-parameter splitting

`parser.py` and `generator.py` each define `_split_generic_params`; the
parser's copy tracks only angle-bracket depth, the generator's copy
tracks angle-bracket and parenthesis depth.  `generator.py` additionally
defines `_split_tuple_elements` with the generator's depth rules.
Depths are Python `int`s and may go negative.  -/

/-- Worker for the parser's `_split_generic_params` (angle depth only). -/
def splitGenericParamsPAux : Str → Str → Int → List Str
  | [], cur, _ => if strip cur ≠ [] then [strip cur] else []
  | c :: rest, cur, depth =>
    if c = '<' then splitGenericParamsPAux rest (cur ++ [c]) (depth + 1)
    else if c = '>' then splitGenericParamsPAux rest (cur ++ [c]) (depth - 1)
    else if c = ',' ∧ depth = 0 then
      (if strip cur ≠ [] then [strip cur] else []) ++ splitGenericParamsPAux rest [] depth
    else splitGenericParamsPAux rest (cur ++ [c]) depth

/-- `parser.RustRouteParser._split_generic_params`. -/
def splitGenericParamsP (s : Str) : List Str := splitGenericParamsPAux s [] 0

/-- Worker for the generator's `_split_generic_params`
(angle and parenthesis depth). -/
def splitGenericParamsGAux : Str → Str → Int → Int → List Str
  | [], cur, _, _ => if strip cur ≠ [] then [strip cur] else []
  | c :: rest, cur, ad, pd =>
    if c = '<' then splitGenericParamsGAux rest (cur ++ [c]) (ad + 1) pd
    else if c = '>' then splitGenericParamsGAux rest (cur ++ [c]) (ad - 1) pd
    else if c = '(' then splitGenericParamsGAux rest (cur ++ [c]) ad (pd + 1)
    else if c = ')' then splitGenericParamsGAux rest (cur ++ [c]) ad (pd - 1)
    else if c = ',' ∧ ad = 0 ∧ pd = 0 then
      (if strip cur ≠ [] then [strip cur] else []) ++ splitGenericParamsGAux rest [] ad pd
    else splitGenericParamsGAux rest (cur ++ [c]) ad pd

/-- `generator.TypeScriptGenerator._split_generic_params`. -/
def splitGenericParamsG (s : Str) : List Str := splitGenericParamsGAux s [] 0 0

/-- `generator.TypeScriptGenerator._split_tuple_elements` (the same
depth rules as the generator's `_split_generic_params`). -/
def splitTupleElements (s : Str) : List Str := splitGenericParamsGAux s [] 0 0

theorem strip_length_le (s : Str) : (strip s).length ≤ s.length := by
  unfold strip
  calc ((s.dropWhile isSpaceChar).reverse.dropWhile isSpaceChar).reverse.length
      = ((s.dropWhile isSpaceChar).reverse.dropWhile isSpaceChar).length := by
        rw [List.length_reverse]
    _ ≤ (s.dropWhile isSpaceChar).reverse.length :=
        (List.dropWhile_sublist _).length_le
    _ = (s.dropWhile isSpaceChar).length := by rw [List.length_reverse]
    _ ≤ s.length := (List.dropWhile_sublist _).length_le

theorem mem_emit_strip (cur : Str) (e : Str)
    (he : e ∈ (if strip cur ≠ [] then [strip cur] else [])) : e = strip cur := by
  by_cases h : strip cur ≠ []
  · simpa [if_pos h] using he
  · simp [if_neg h] at he

theorem mem_splitGenericParamsGAux_length (s : Str) :
    ∀ (cur : Str) (ad pd : Int),
      ∀ e ∈ splitGenericParamsGAux s cur ad pd, e.length ≤ s.length + cur.length := by
  induction s with
  | nil =>
    intro cur ad pd e he
    simp only [splitGenericParamsGAux] at he
    have := mem_emit_strip cur e he
    subst this
    simpa using strip_length_le cur
  | cons c rest ih =>
    intro cur ad pd e he
    simp only [splitGenericParamsGAux] at he
    have hstep : ∀ (ad' pd' : Int), e ∈ splitGenericParamsGAux rest (cur ++ [c]) ad' pd' →
        e.length ≤ (c :: rest).length + cur.length := by
      intro ad' pd' h
      have := ih (cur ++ [c]) ad' pd' e h
      simp only [List.length_append, List.length_cons, List.length_nil] at this ⊢
      omega
    split_ifs at he with h1 h2 h3 h4 h5 h6
    · exact hstep _ _ he
    · exact hstep _ _ he
    · exact hstep _ _ he
    · exact hstep _ _ he
    · rcases List.mem_append.mp he with h | h
      · have heq := List.mem_singleton.mp h
        subst heq
        have := strip_length_le cur
        simp only [List.length_cons]
        omega
      · have := ih [] ad pd e h
        simp only [List.length_nil, Nat.add_zero] at this
        simp only [List.length_cons]
        omega
    · simp only [List.nil_append] at he
      have := ih [] ad pd e he
      simp only [List.length_nil, Nat.add_zero] at this
      simp only [List.length_cons]
      omega
    · exact hstep _ _ he

theorem mem_splitTupleElements_length (s : Str) :
    ∀ e ∈ splitTupleElements s, e.length ≤ s.length := by
  intro e he
  have := mem_splitGenericParamsGAux_length s [] 0 0 e he
  simpa using this

/-!  ## JSON values

The OpenAPI document built by `generate_openapi` is a nest of Python
dicts, lists, strings and booleans; it is embedded as the inductive `J`
with insertion-ordered association lists for dicts.  -/

inductive J where
  | s (v : Str)
  | b (v : Bool)
  | arr (vs : List J)
  | obj (kvs : List (Str × J))

/-- Python `d[k] = v` on an insertion-ordered dict: replace in place if
the key exists, else append. -/
def setKey : List (Str × J) → Str → J → List (Str × J)
  | [], k, v => [(k, v)]
  | (k', v') :: rest, k, v =>
    if k' = k then (k, v) :: rest else (k', v') :: setKey rest k v

/-- Python `d.get(k)`. -/
def getKey? (kvs : List (Str × J)) (k : Str) : Option J :=
  (kvs.find? (fun p => p.1 = k)).map (·.2)

/-- Python `k in d`. -/
def hasKey (kvs : List (Str × J)) (k : Str) : Bool :=
  (getKey? kvs k).isSome

/-- Python `s.split('::')` (two-character separator, non-overlapping,
left to right). -/
def splitDColonAux : Str → Str → List Str
  | [], cur => [cur]
  | ':' :: ':' :: rest, cur => cur :: splitDColonAux rest []
  | c :: rest, cur => splitDColonAux rest (cur ++ [c])

def splitDColon (s : Str) : List Str := splitDColonAux s []

/-- Python `s.split('::')[-1]`. -/
def lastSegment (s : Str) : Str := (splitDColon s).getLastD []

/-- First-occurrence deduplication of a string list (Python `set`
membership used to collect distinct values). -/
def dedupStrsAux (seen : List Str) : List Str → List Str
  | [] => []
  | x :: rest =>
    if seen.contains x then dedupStrsAux seen rest
    else x :: dedupStrsAux (x :: seen) rest

def dedupStrs (l : List Str) : List Str := dedupStrsAux [] l

/-!  ## `apply_rename_all` (local helper of `generate_openapi`)  -/

/-- `re.sub('(.)([A-Z][a-z]+)', r'\1<sep>\2', name)`: any character
followed by an upper-case letter and a non-empty greedy run of
lower-case letters, scanning left to right without overlap. -/
def reSubUpperRun (sep : Char) : Str → Str
  | c :: u :: rest =>
    if u.isUpper ∧ rest.takeWhile Char.isLower ≠ [] then
      let ls := rest.takeWhile Char.isLower
      c :: sep :: u :: (ls ++ reSubUpperRun sep (rest.drop ls.length))
    else
      c :: reSubUpperRun sep (u :: rest)
  | s => s
termination_by s => s.length
decreasing_by
  all_goals simp only [List.length_cons, List.length_drop]
  all_goals omega

/-- `re.sub('([a-z0-9])([A-Z])', r'\1<sep>\2', name)`. -/
def reSubLowerUpper (sep : Char) : Str → Str
  | a :: b :: rest =>
    if (a.isLower ∨ a.isDigit) ∧ b.isUpper then
      a :: sep :: b :: reSubLowerUpper sep rest
    else
      a :: reSubLowerUpper sep (b :: rest)
  | s => s
termination_by s => s.length
decreasing_by
  all_goals simp only [List.length_cons]
  all_goals omega

/-- Python `s.lower()`. -/
def lowerStr (s : Str) : Str := s.map Char.toLower

/-- Python `s.capitalize()`. -/
def capitalizePy : Str → Str
  | [] => []
  | c :: rest => c.toUpper :: rest.map Char.toLower

/-- `apply_rename_all(name, rule)` from `generate_openapi`. -/
def applyRenameAll (name rule : Str) : Str :=
  if rule = [] ∨ name = [] then name
  else if rule = str "snake_case" then
    lowerStr (reSubLowerUpper '_' (reSubUpperRun '_' name))
  else if rule = str "camelCase" then
    let parts := splitOnChar '_' name
    lowerStr (parts.headD []) ++ (parts.tail.map capitalizePy).flatten
  else if rule = str "kebab-case" then
    lowerStr (reSubLowerUpper '-' (reSubUpperRun '-' name))
  else name

/-!  ## Custom-type resolution (`_resolve_custom_type` and the lookup
tables built in `TypeScriptGenerator.__init__`)  -/

/-- `self.rust_to_ts`: last assignment wins on duplicate paths. -/
def rustToTs (tds : List TypeDefinition) (rt : Str) : Option Str :=
  (tds.reverse.find? (fun td => td.rustPath = rt)).map (·.name)

/-- `self.simple_to_ts`: original names mapped to their single distinct
output name, omitted when several distinct names share the original. -/
def simpleToTs (tds : List TypeDefinition) (simple : Str) : Option Str :=
  match dedupStrs ((tds.filter (fun td => td.originalName = simple)).map (·.name)) with
  | [n] => some n
  | _ => none

/-- `_resolve_custom_type(rust_type, for_types_file)`. -/
def resolveCustomType (tds : List TypeDefinition) (rt : Str) (forTypesFile : Bool) :
    Option Str :=
  match rustToTs tds rt with
  | some n => some (if forTypesFile then n else str "Types." ++ n)
  | none =>
    match simpleToTs tds (lastSegment rt) with
    | some n =>
      if n ≠ [] then some (if forTypesFile then n else str "Types." ++ n) else none
    | none => none

/-!  ## `_rust_schema_for_type`  -/

/-- The remainder of `s` after one of the wrapper names and any
whitespace. -/
def wrapAngleTail (s n : Str) : Str := (s.drop n.length).dropWhile isSpaceChar

/-- Matcher for `^<name>\s*<(.+)>$` for a single wrapper name: the name,
optional whitespace, `<`, a non-empty inner text, and a final `>`. -/
def matchWrapAngleOne (s n : Str) : Option Str :=
  if strStarts s n then
    if (wrapAngleTail s n).headD ' ' = '<'
        ∧ 2 ≤ ((wrapAngleTail s n).tail).length
        ∧ ((wrapAngleTail s n).tail).getLastD ' ' = '>' then
      some (((wrapAngleTail s n).tail).dropLast)
    else none
  else none

/-- Matcher for `^(?:<name1>|<name2>|...)\s*<(.+)>$` (used for the
`Option<...>` and `Vec<...>` branches), trying the alternatives in
order. -/
def matchWrapAngle (names : List Str) (s : Str) : Option Str :=
  names.findSome? (matchWrapAngleOne s)

def optionNameAlts : List Str :=
  [str "Option", str "std::option::Option", str "core::option::Option"]

def vecNameAlts : List Str :=
  [str "Vec", str "std::vec::Vec", str "alloc::vec::Vec"]

/-- The text between the `<` (after optional whitespace skipped by the
caller) and the final `>`, with the whitespace after `<` removed. -/
def hashMapBody (u : Str) : Str := (u.dropLast).dropWhile isSpaceChar

/-- The last comma position of `body` that leaves a non-empty key group
before it and a non-empty value group after it (the split the greedy
`(.+),\s*(.+)` groups settle on). -/
def lastValidComma (body : Str) : Option Nat :=
  ((List.range body.length).filter (fun j =>
    body.getD j ' ' = ',' ∧ 1 ≤ j ∧ j + 2 ≤ body.length)).getLast?

/-- The `(.+)` value group of `^(?:.+::)?HashMap\s*<\s*(.+),\s*(.+)\s*>$`
applied after the `HashMap` literal: optional whitespace, `<`, optional
whitespace, then the body is split at the last valid comma. -/
def hashMapParseAt (t : Str) : Option Str :=
  if (t.dropWhile isSpaceChar).headD ' ' = '<' then
    if (t.dropWhile isSpaceChar).tail ≠ []
        ∧ ((t.dropWhile isSpaceChar).tail).getLastD ' ' = '>' then
      match lastValidComma (hashMapBody ((t.dropWhile isSpaceChar).tail)) with
      | some j => some ((hashMapBody ((t.dropWhile isSpaceChar).tail)).drop (j + 1))
      | none => none
    else none
  else none

/-- The value-type group of the `HashMap` regex of
`_rust_schema_for_type`, with the greedy `(?:.+::)?` prefix resolved
from the longest qualifying prefix down to the empty one. -/
def hashMapValGroup (s : Str) : Option Str :=
  if strEnds s (str ">") then
    let name := str "HashMap"
    let starts : List Nat :=
      ((List.range (s.length + 1)).filter (fun i =>
        decide (3 ≤ i) && strEnds (s.take i) (str "::") && strStarts (s.drop i) name)).reverse
      ++ (if strStarts s name then [0] else [])
    starts.findSome? (fun i => hashMapParseAt (s.drop (i + name.length)))
  else none

theorem hashMapParseAt_length (t raw : Str) (h : hashMapParseAt t = some raw) :
    raw.length < t.length := by
  unfold hashMapParseAt at h
  by_cases h1 : (t.dropWhile isSpaceChar).headD ' ' = '<'
  case neg => rw [if_neg h1] at h; exact absurd h (by simp)
  rw [if_pos h1] at h
  by_cases h2 : (t.dropWhile isSpaceChar).tail ≠ []
      ∧ ((t.dropWhile isSpaceChar).tail).getLastD ' ' = '>'
  case neg => rw [if_neg h2] at h; exact absurd h (by simp)
  rw [if_pos h2] at h
  rcases hlast : lastValidComma (hashMapBody ((t.dropWhile isSpaceChar).tail)) with _ | j
  · rw [hlast] at h; exact absurd h (by simp)
  · rw [hlast] at h
    have hraw : raw = (hashMapBody ((t.dropWhile isSpaceChar).tail)).drop (j + 1) :=
      (Option.some.injEq _ _ ▸ h).symm
    have hb1 : (hashMapBody ((t.dropWhile isSpaceChar).tail)).length
        ≤ ((t.dropWhile isSpaceChar).tail).dropLast.length :=
      (List.dropWhile_sublist _).length_le
    have hb2 : ((t.dropWhile isSpaceChar).tail).dropLast.length
        = ((t.dropWhile isSpaceChar).tail).length - 1 := List.length_dropLast _
    have hb3 : ((t.dropWhile isSpaceChar).tail).length
        = (t.dropWhile isSpaceChar).length - 1 := List.length_tail _
    have hb4 : (t.dropWhile isSpaceChar).length ≤ t.length :=
      (List.dropWhile_sublist _).length_le
    have hb5 : 0 < ((t.dropWhile isSpaceChar).tail).length :=
      List.length_pos.mpr h2.1
    have hb6 : raw.length
        = (hashMapBody ((t.dropWhile isSpaceChar).tail)).length - (j + 1) := by
      rw [hraw, List.length_drop]
    omega

theorem strEnds_length (s p : Str) (h : strEnds s p = true) : p.length ≤ s.length :=
  (List.isSuffixOf_iff_suffix.mp h).length_le

theorem strStarts_length (s p : Str) (h : strStarts s p = true) : p.length ≤ s.length :=
  (List.isPrefixOf_iff_prefix.mp h).length_le

theorem matchWrapAngleOne_length (s n inner : Str)
    (h : matchWrapAngleOne s n = some inner) : inner.length < s.length := by
  unfold matchWrapAngleOne at h
  by_cases h1 : strStarts s n = true
  case neg => rw [if_neg h1] at h; exact absurd h (by simp)
  rw [if_pos h1] at h
  by_cases h2 : (wrapAngleTail s n).headD ' ' = '<'
      ∧ 2 ≤ ((wrapAngleTail s n).tail).length
      ∧ ((wrapAngleTail s n).tail).getLastD ' ' = '>'
  case neg => rw [if_neg h2] at h; exact absurd h (by simp)
  rw [if_pos h2] at h
  have hinner : inner = ((wrapAngleTail s n).tail).dropLast :=
    (Option.some.injEq _ _ ▸ h).symm
  have hb1 : ((wrapAngleTail s n).tail).dropLast.length
      = ((wrapAngleTail s n).tail).length - 1 := List.length_dropLast _
  have hb2 : ((wrapAngleTail s n).tail).length = (wrapAngleTail s n).length - 1 :=
    List.length_tail _
  have hb3 : (wrapAngleTail s n).length ≤ (s.drop n.length).length :=
    (List.dropWhile_sublist _).length_le
  have hb4 : (s.drop n.length).length ≤ s.length := by
    rw [List.length_drop]; omega
  have hb5 : 2 ≤ ((wrapAngleTail s n).tail).length := h2.2.1
  rw [hinner]
  omega

theorem matchWrapAngle_length (names : List Str) (s inner : Str)
    (h : matchWrapAngle names s = some inner) : inner.length < s.length := by
  obtain ⟨n, _, hn⟩ := List.exists_of_findSome?_eq_some h
  exact matchWrapAngleOne_length s n inner hn

theorem hashMapValGroup_length (s raw : Str) (h : hashMapValGroup s = some raw) :
    raw.length < s.length := by
  unfold hashMapValGroup at h
  by_cases h1 : strEnds s (str ">") = true
  case neg => rw [if_neg h1] at h; exact absurd h (by simp)
  rw [if_pos h1] at h
  obtain ⟨i, _, hi⟩ := List.exists_of_findSome?_eq_some h
  have := hashMapParseAt_length _ _ hi
  have hdrop : (s.drop (i + (str "HashMap").length)).length ≤ s.length := by
    rw [List.length_drop]; omega
  omega

/-- The primitive-type mapping of `_rust_schema_for_type`. -/
def primSchemas : List (Str × J) :=
  [ (str "String", J.obj [(str "type", J.s (str "string"))])
  , (str "str", J.obj [(str "type", J.s (str "string"))])
  , (str "bool", J.obj [(str "type", J.s (str "boolean"))])
  , (str "i8", J.obj [(str "type", J.s (str "number"))])
  , (str "i16", J.obj [(str "type", J.s (str "number"))])
  , (str "i32", J.obj [(str "type", J.s (str "number"))])
  , (str "i64", J.obj [(str "type", J.s (str "number"))])
  , (str "u8", J.obj [(str "type", J.s (str "number"))])
  , (str "u16", J.obj [(str "type", J.s (str "number"))])
  , (str "u32", J.obj [(str "type", J.s (str "number"))])
  , (str "u64", J.obj [(str "type", J.s (str "number"))])
  , (str "f32", J.obj [(str "type", J.s (str "number"))])
  , (str "f64", J.obj [(str "type", J.s (str "number"))])
  ]

/-- The non-recursive tail of `_rust_schema_for_type`: primitive
mapping, `serde_json::Value`, `$ref` resolution, and the string
fallback. -/
def rustSchemaPrim (tds : List TypeDefinition) (s : Str) : J :=
  match primSchemas.find? (fun p => p.1 = s) with
  | some p => p.2
  | none =>
    if s = str "serde_json::Value" ∨ s = str "serde_json::value::Value" then
      J.obj [(str "type", J.s (str "object"))]
    else
      match resolveCustomType tds s true with
      | some resolved =>
        J.obj [(str "$ref", J.s (str "#/components/schemas/" ++ resolved))]
      | none => J.obj [(str "type", J.s (str "string"))]

/-- Mark a schema nullable (`sch['nullable'] = True`). -/
def markNullable : J → J
  | J.obj kvs => J.obj (setKey kvs (str "nullable") (J.b true))
  | other => other

/-- `_rust_schema_for_type`: best-effort conversion from a Rust type
string to a JSON-schema fragment. -/
def rustSchemaForType (tds : List TypeDefinition) (rt : Str) : J :=
  if rt = [] then J.obj [(str "type", J.s (str "string"))]
  else
    match hOpt : matchWrapAngle optionNameAlts (strip rt) with
    | some inner => markNullable (rustSchemaForType tds inner)
    | none =>
      match hVec : matchWrapAngle vecNameAlts (strip rt) with
      | some inner =>
        J.obj [(str "type", J.s (str "array")),
               (str "items", rustSchemaForType tds inner)]
      | none =>
        if strEnds (strip rt) (str "[]") then
          J.obj [(str "type", J.s (str "array")),
                 (str "items", rustSchemaForType tds (strip ((strip rt).take ((strip rt).length - 2))))]
        else
          match hHm : hashMapValGroup (strip rt) with
          | some raw =>
            J.obj [(str "type", J.s (str "object")),
                   (str "additionalProperties", rustSchemaForType tds (strip raw))]
          | none =>
            if strStarts (strip rt) (str "(") ∧ strEnds (strip rt) (str ")")
                ∧ strip (((strip rt).drop 1).take ((strip rt).length - 2)) ≠ [] then
              J.obj [(str "type", J.s (str "array")),
                     (str "items", J.obj [(str "oneOf", J.arr
                       ((splitTupleElements
                          (strip (((strip rt).drop 1).take ((strip rt).length - 2)))).attach.map
                         (fun p => rustSchemaForType tds p.1)))])]
            else rustSchemaPrim tds (strip rt)
termination_by rt.length
decreasing_by
  · have := matchWrapAngle_length _ _ _ hOpt
    have := strip_length_le rt
    omega
  · have := matchWrapAngle_length _ _ _ hVec
    have := strip_length_le rt
    omega
  · have h1 : (strip ((strip rt).take ((strip rt).length - 2))).length
        ≤ ((strip rt).take ((strip rt).length - 2)).length := strip_length_le _
    have h2 : ((strip rt).take ((strip rt).length - 2)).length ≤ (strip rt).length - 2 := by
      rw [List.length_take]; omega
    have h3 : (strip rt).length ≤ rt.length := strip_length_le rt
    have h4 : 2 ≤ (strip rt).length := by
      have hs : strEnds (strip rt) (str "[]") = true := by assumption
      have hlen := strEnds_length _ _ hs
      have h2' : (str "[]").length = 2 := rfl
      omega
    omega
  · have := hashMapValGroup_length _ _ hHm
    have h1 : (strip raw).length ≤ raw.length := strip_length_le raw
    have h3 : (strip rt).length ≤ rt.length := strip_length_le rt
    omega
  · rename_i p
    have hmem := mem_splitTupleElements_length _ _ p.2
    have h1 : (strip (((strip rt).drop 1).take ((strip rt).length - 2))).length
        ≤ (((strip rt).drop 1).take ((strip rt).length - 2)).length := strip_length_le _
    have h2 : (((strip rt).drop 1).take ((strip rt).length - 2)).length
        ≤ (strip rt).length - 2 := by
      rw [List.length_take]; omega
    have h3 : (strip rt).length ≤ rt.length := strip_length_le rt
    have h4 : 1 ≤ (strip rt).length := by
      have hcond : (strStarts (strip rt) (str "(") = true)
          ∧ (strEnds (strip rt) (str ")") = true)
          ∧ strip (((strip rt).drop 1).take ((strip rt).length - 2)) ≠ [] := by
        assumption
      have hlen := strStarts_length _ _ hcond.1
      have h1' : (str "(").length = 1 := rfl
      omega
    omega

/-!  ## Truthiness helpers (Python `if x:` on strings and options)  -/

/-- Python truthiness of a string. -/
def truthyS (s : Str) : Bool := !s.isEmpty

/-- Python truthiness of an optional string (`None` and `''` falsy). -/
def truthyOpt : Option Str → Bool
  | none => false
  | some s => truthyS s

/-- Python `a or b` on strings (used for `ser if ser else vn`,
`td.enum_tag or 'type'` and the like). -/
def orElseStr (a b : Str) : Str := if truthyS a then a else b

/-- Python `opt or default` on an optional string. -/
def optOr (o : Option Str) (d : Str) : Str :=
  match o with
  | some s => orElseStr s d
  | none => d

/-- Python `s.upper()`. -/
def upperStr (s : Str) : Str := s.map Char.toUpper

/-- `td.rename_all` application guard
(`if td.rename_all: x = apply_rename_all(x, td.rename_all)`). -/
def applyIfRenameAll (ra : Option Str) (name : Str) : Str :=
  match ra with
  | some r => if truthyS r then applyRenameAll name r else name
  | none => name

/-!  ## `_find_type_def_for_rust`  -/

/-- `generator.TypeScriptGenerator._find_type_def_for_rust`: direct
`rust_path` match first, then first definition whose original name
equals the last path segment or whose output name ends with it. -/
def findTypeDefForRust (tds : List TypeDefinition) (rt : Str) : Option TypeDefinition :=
  if rt = [] then none
  else if tds.any (fun td => td.rustPath = rt) then
    tds.find? (fun td => td.rustPath = rt)
  else
    tds.find? (fun td =>
      td.originalName = lastSegment rt ∨ strEnds td.name (lastSegment rt))

/-!  ## Structural equality on `J` (Python `==` as used for the
membership tests on lists of required-field names, which only ever hold
strings). -/

mutual
def jBeq : J → J → Bool
  | J.s a, J.s b => a = b
  | J.b a, J.b b => a = b
  | J.arr a, J.arr b => jBeqL a b
  | J.obj a, J.obj b => jBeqKv a b
  | _, _ => false
def jBeqL : List J → List J → Bool
  | [], [] => true
  | x :: xs, y :: ys => jBeq x y && jBeqL xs ys
  | _, _ => false
def jBeqKv : List (Str × J) → List (Str × J) → Bool
  | [], [] => true
  | (k1, v1) :: xs, (k2, v2) :: ys => k1 = k2 && jBeq v1 v2 && jBeqKv xs ys
  | _, _ => false
end

/-- Python `x in l` for a list of JSON values. -/
def jMem (x : J) (l : List J) : Bool := l.any (jBeq x)

/-!  ## Component schemas for structs (`generate_openapi`, first loop)  -/

/-- `_sanitize_prop_name`. -/
def sanitizePropName (name : Str) : Str :=
  if name = [] then name
  else
    let n := if strStarts name (str "r#") then name.drop 2 else name
    if [str "type", str "default", str "function", str "class", str "var",
        str "let", str "const", str "new"].contains n then
      n ++ str "_"
    else n

/-- Python `sorted(set(xs))` for strings. -/
def sortedSet (l : List Str) : List Str := (dedupStrs l).mergeSort strLe

/-- The property/required contribution of one field entry of the first
schema loop of `generate_openapi` (flatten entries contribute the
resolved nested definition's fields, one level deep). -/
def baseSchemaFieldStep (tds : List TypeDefinition) (td : TypeDefinition)
    (acc : List (Str × J) × List Str) (entry : FieldEntry) :
    List (Str × J) × List Str :=
  let (props, required) := acc
  if entry.isFlatten then
    match findTypeDefForRust tds entry.rustType with
    | some nested =>
      nested.fields.foldl (fun (acc' : List (Str × J) × List Str) nEntry =>
        let (props', required') := acc'
        let nSerialized := sanitizePropName
          (applyIfRenameAll nested.renameAll nEntry.serializedName)
        let props'' := setKey props' nSerialized (rustSchemaForType tds nEntry.rustType)
        if !nEntry.isOptional then (props'', required' ++ [nSerialized])
        else (props'', required')) (props, required)
    | none =>
      -- `if nested:` failed: fall through to the ordinary handling
      let serialized := sanitizePropName
        (if truthyOpt td.renameAll ∧ entry.serializedName = entry.fieldName then
          applyIfRenameAll td.renameAll entry.serializedName
        else entry.serializedName)
      let props' := setKey props serialized (rustSchemaForType tds entry.rustType)
      if !entry.isOptional then (props', required ++ [serialized])
      else (props', required)
  else
    let serialized := sanitizePropName
      (if truthyOpt td.renameAll ∧ entry.serializedName = entry.fieldName then
        applyIfRenameAll td.renameAll entry.serializedName
      else entry.serializedName)
    let props' := setKey props serialized (rustSchemaForType tds entry.rustType)
    if !entry.isOptional then (props', required ++ [serialized])
    else (props', required)

/-- One `{'type': 'object', 'properties': ..., 'required': ...}` schema
of the first loop of `generate_openapi`. -/
def makeBaseSchema (tds : List TypeDefinition) (td : TypeDefinition) : J :=
  let (props, required) := td.fields.foldl (baseSchemaFieldStep tds td) ([], [])
  if required ≠ [] then
    J.obj [(str "type", J.s (str "object")), (str "properties", J.obj props),
           (str "required", J.arr ((sortedSet required).map J.s))]
  else
    J.obj [(str "type", J.s (str "object")), (str "properties", J.obj props)]

/-- The component schemas after the first loop of `generate_openapi`:
one base schema per type definition (enums included; their enum-shaped
schemas overwrite these in the second loop). -/
def makeBaseSchemas (tds : List TypeDefinition) : List (Str × J) :=
  tds.foldl (fun schemas td => setKey schemas td.name (makeBaseSchema tds td)) []

/-!  ## Enum component schemas (`generate_openapi`, second loop)  -/

/-- `{'$ref': '#/components/schemas/<name>'}`. -/
def refSchema (n : Str) : J :=
  J.obj [(str "$ref", J.s (str "#/components/schemas/" ++ n))]

/-- The `'#/components/schemas/<name>'` reference string used in
discriminator mappings. -/
def refString (n : Str) : Str := str "#/components/schemas/" ++ n

/-- `{'type': 'string', 'enum': [<v>]}`. -/
def tagValueSchema (v : Str) : J :=
  J.obj [(str "type", J.s (str "string")), (str "enum", J.arr [J.s v])]

/-- The serde style the generator uses for a mixed/payload enum:
`getattr(td, 'enum_style', None) or 'adjacent'`. -/
def styleOf (td : TypeDefinition) : Str := optOr td.enumStyle (str "adjacent")

/-- The discriminant value of a variant:
`ser if ser else vn`, then `rename_all` when present. -/
def discValOf (td : TypeDefinition) (v : VariantEntry) : Str :=
  applyIfRenameAll td.renameAll (orElseStr v.serializedName v.variantName)

/-- The warning emitted when a referenced payload component declares the
tag field. -/
def collisionWarning (refName tagField : Str) : Str :=
  str "Referenced component '" ++ refName ++ str "' contains field '" ++ tagField
    ++ str "' which collides with enum tag; using allOf but collision may affect clients"

/-- The warning emitted when a colliding field is skipped during
inlining. -/
def skipInlineWarning (pk vsName tagField : Str) : Str :=
  str "Skipped inlining field '" ++ pk ++ str "' into variant " ++ vsName
    ++ str " because it conflicts with tag '" ++ tagField ++ str "'"

/-- The warning emitted when the payload is nested under `'payload'`
because the referenced component is unavailable. -/
def unavailableWarning (vsName refName : Str) : Str :=
  str "Fell back to nesting payload under 'payload' for variant " ++ vsName
    ++ str " because referenced component " ++ refName
    ++ str " was not available for inlining"

/-- The warning emitted when the payload shape is unknown. -/
def unknownShapeWarning (vsName : Str) : Str :=
  str "Fell back to nesting payload under 'payload' for variant " ++ vsName
    ++ str " (unknown payload shape)"

/-- The `properties` dict of a component schema
(`comp.get('properties', {})`). -/
def compProps (compKvs : List (Str × J)) : List (Str × J) :=
  match getKey? compKvs (str "properties") with
  | some (J.obj ps) => ps
  | _ => []

/-- The `required` list of a component schema
(`comp.get('required', [])`). -/
def compRequired (compKvs : List (Str × J)) : List J :=
  match getKey? compKvs (str "required") with
  | some (J.arr rs) => rs
  | _ => []

/-- The base internally/adjacently tagged variant schema before payload
handling: `{'type': 'object', 'properties': {tag: <tag-schema>},
'required': [tag]}`. -/
def tagOnlyVariantSchema (tagField discVal : Str) : List (Str × J) :=
  [(str "type", J.s (str "object")),
   (str "properties", J.obj [(tagField, tagValueSchema discVal)]),
   (str "required", J.arr [J.s tagField])]

/-- Add a property to a variant schema held as the key/value list of
`tagOnlyVariantSchema` (mutating `variant_schema['properties'][k]`). -/
def variantAddProp (vs : List (Str × J)) (k : Str) (v : J) : List (Str × J) :=
  setKey vs (str "properties")
    (J.obj (setKey (compProps vs) k v))

/-- The merge of an unavailable-reference component's properties and
required names into an internally-tagged variant schema, skipping the
tag field (with a warning per skipped property). -/
def mergeCompIntoVariant (vs : List (Str × J)) (compKvs : List (Str × J))
    (vsName tagField : Str) (warnings : List Str) : List (Str × J) × List Str :=
  let (vs1, warnings1) := (compProps compKvs).foldl
    (fun (acc : List (Str × J) × List Str) pkv =>
      let (vsAcc, wAcc) := acc
      if pkv.1 = tagField then (vsAcc, wAcc ++ [skipInlineWarning pkv.1 vsName tagField])
      else (variantAddProp vsAcc pkv.1 pkv.2, wAcc)) (vs, warnings)
  let req := compRequired compKvs
  if !req.isEmpty then
    let newReq := req.foldl
      (fun (cur : List J) rk =>
        match rk with
        | J.s rkS =>
          if rkS = tagField then cur
          else if jMem (J.s rkS) cur then cur else cur ++ [J.s rkS]
        | other => if jMem other cur then cur else cur ++ [other])
      (match getKey? vs1 (str "required") with
       | some (J.arr cur) => cur
       | _ => [J.s tagField])
    (setKey vs1 (str "required") (J.arr newReq), warnings1)
  else (vs1, warnings1)

/-- The schema and warning contribution of one variant of an
internally-tagged enum (`style == 'internally_tagged'` branch of
`generate_openapi`). -/
def internalVariantSchema (tds : List TypeDefinition) (schemas : List (Str × J))
    (warnings : List Str) (tdName tagField : Str) (v : VariantEntry)
    (discVal : Str) : J × List Str :=
  let vsName := tdName ++ v.variantName
  let base := tagOnlyVariantSchema tagField discVal
  if v.hasPayload then
    if truthyOpt v.payloadType then
      let pt := v.payloadType.getD []
      match findTypeDefForRust tds pt with
      | some ptd =>
        let refName := ptd.name
        let warnings' :=
          match getKey? schemas refName with
          | some (J.obj compKvs) =>
            if !compKvs.isEmpty then
              if hasKey (compProps compKvs) tagField then
                warnings ++ [collisionWarning refName tagField]
              else warnings
            else warnings
          | _ => warnings
        (J.obj [(str "allOf", J.arr
            [refSchema refName,
             J.obj [(str "type", J.s (str "object")),
                    (str "properties", J.obj [(tagField, tagValueSchema discVal)]),
                    (str "required", J.arr [J.s tagField])]])],
         warnings')
      | none =>
        let rustSch := rustSchemaForType tds pt
        match rustSch with
        | J.obj rsKvs =>
          if hasKey rsKvs (str "$ref") then
            let refStr := match getKey? rsKvs (str "$ref") with
              | some (J.s v') => v'
              | _ => []
            let refName := (splitOnChar '/' refStr).getLastD []
            match getKey? schemas refName with
            | some (J.obj compKvs) =>
              if !compKvs.isEmpty then
                let (vs', warnings') :=
                  mergeCompIntoVariant base compKvs vsName tagField warnings
                (J.obj vs', warnings')
              else
                (J.obj (variantAddProp base (str "payload") rustSch),
                 warnings ++ [unavailableWarning vsName refName])
            | _ =>
              (J.obj (variantAddProp base (str "payload") rustSch),
               warnings ++ [unavailableWarning vsName refName])
          else
            (J.obj (variantAddProp base (str "payload") rustSch),
             warnings ++ [unknownShapeWarning vsName])
        | other =>
          (J.obj (variantAddProp base (str "payload") other),
           warnings ++ [unknownShapeWarning vsName])
    else
      (J.obj (variantAddProp base (str "payload")
        (J.obj [(str "type", J.s (str "object"))])), warnings)
  else (J.obj base, warnings)

/-- The full internally-tagged emission for one enum definition. -/
def emitInternalEnum (tds : List TypeDefinition) (td : TypeDefinition)
    (schemas0 : List (Str × J)) (warnings0 : List Str) :
    List (Str × J) × List Str :=
  let tagField := optOr td.enumTag (str "type")
  let final := td.variants.foldl
    (fun (acc : List (Str × J) × List Str × List J × List (Str × J)) v =>
      let (schemas, warnings, refs, mapping) := acc
      let discVal := discValOf td v
      let vsName := td.name ++ v.variantName
      let (vs, warnings') :=
        internalVariantSchema tds schemas warnings td.name tagField v discVal
      (setKey schemas vsName vs, warnings', refs ++ [refSchema vsName],
       setKey mapping discVal (J.s (refString vsName))))
    (schemas0, warnings0, [], [])
  let (schemas, warnings, refs, mapping) := final
  (setKey schemas td.name (J.obj
    [(str "oneOf", J.arr refs),
     (str "discriminator", J.obj
       [(str "propertyName", J.s tagField), (str "mapping", J.obj mapping)])]),
   warnings)

/-- The adjacent-tagging emission for one enum definition
(`style == 'adjacent'` branch). -/
def emitAdjacentEnum (tds : List TypeDefinition) (td : TypeDefinition)
    (schemas0 : List (Str × J)) (warnings0 : List Str) :
    List (Str × J) × List Str :=
  let tagField := optOr td.enumTag (str "type")
  let contentField := optOr td.enumContent (str "payload")
  let final := td.variants.foldl
    (fun (acc : List (Str × J) × List J × List (Str × J)) v =>
      let (schemas, refs, mapping) := acc
      let discVal := discValOf td v
      let vsName := td.name ++ v.variantName
      let base := tagOnlyVariantSchema tagField discVal
      let vs :=
        if v.hasPayload then
          if truthyOpt v.payloadType then
            let pt := v.payloadType.getD []
            match findTypeDefForRust tds pt with
            | some ptd => variantAddProp base contentField (refSchema ptd.name)
            | none => variantAddProp base contentField (rustSchemaForType tds pt)
          else
            variantAddProp base contentField (J.obj [(str "type", J.s (str "object"))])
        else base
      (setKey schemas vsName (J.obj vs), refs ++ [refSchema vsName],
       setKey mapping discVal (J.s (refString vsName))))
    (schemas0, [], [])
  let (schemas, refs, mapping) := final
  (setKey schemas td.name (J.obj
    [(str "oneOf", J.arr refs),
     (str "discriminator", J.obj
       [(str "propertyName", J.s tagField), (str "mapping", J.obj mapping)])]),
   warnings0)

/-- The externally-tagged fallback emission for one enum definition
(final `else` branch of the style dispatch). -/
def emitExternalEnum (tds : List TypeDefinition) (td : TypeDefinition)
    (schemas0 : List (Str × J)) (warnings0 : List Str) :
    List (Str × J) × List Str :=
  let final := td.variants.foldl
    (fun (acc : List (Str × J) × List J) v =>
      let (schemas, refs) := acc
      let key := discValOf td v
      let vsName := td.name ++ v.variantName
      let sch :=
        if v.hasPayload then
          if truthyOpt v.payloadType then
            let pt := v.payloadType.getD []
            match findTypeDefForRust tds pt with
            | some ptd =>
              J.obj [(str "type", J.s (str "object")),
                     (str "properties", J.obj [(key, refSchema ptd.name)]),
                     (str "required", J.arr [J.s key])]
            | none =>
              J.obj [(str "type", J.s (str "object")),
                     (str "properties", J.obj [(key, rustSchemaForType tds pt)]),
                     (str "required", J.arr [J.s key])]
          else
            J.obj [(str "type", J.s (str "object")),
                   (str "properties", J.obj [(key, J.obj [(str "type", J.s (str "object"))])]),
                   (str "required", J.arr [J.s key])]
        else
          J.obj [(str "type", J.s (str "object")),
                 (str "properties", J.obj [(key, tagValueSchema key)]),
                 (str "required", J.arr [J.s key])]
      (setKey schemas vsName sch, refs ++ [refSchema vsName]))
    (schemas0, [])
  let (schemas, refs) := final
  (setKey schemas td.name (J.obj [(str "oneOf", J.arr refs)]), warnings0)

/-- The untagged emission for one enum definition
(`style == 'untagged'` branch). -/
def emitUntaggedEnum (tds : List TypeDefinition) (td : TypeDefinition)
    (schemas0 : List (Str × J)) (warnings0 : List Str) :
    List (Str × J) × List Str :=
  let refs := td.variants.map (fun v =>
    if v.hasPayload then
      if truthyOpt v.payloadType then
        let pt := v.payloadType.getD []
        match findTypeDefForRust tds pt with
        | some ptd => refSchema ptd.name
        | none => rustSchemaForType tds pt
      else J.obj [(str "type", J.s (str "object"))]
    else tagValueSchema (discValOf td v))
  (setKey schemas0 td.name (J.obj [(str "oneOf", J.arr refs)]), warnings0)

/-- The contribution of one type definition to the second
(enum-schemas) loop of `generate_openapi`. -/
def emitEnumTd (tds : List TypeDefinition)
    (st : List (Str × J) × List Str) (td : TypeDefinition) :
    List (Str × J) × List Str :=
  if td.isEnum ∧ td.variants ≠ [] then
    let (schemas, warnings) := st
    if td.variants.all (fun v => !v.hasPayload) then
      (setKey schemas td.name (J.obj
        [(str "type", J.s (str "string")),
         (str "enum", J.arr (td.variants.map (fun v => J.s (discValOf td v))))]),
       warnings)
    else
      let style := styleOf td
      if style = str "untagged" then emitUntaggedEnum tds td schemas warnings
      else if style = str "internally_tagged" then emitInternalEnum tds td schemas warnings
      else if style = str "adjacent" then emitAdjacentEnum tds td schemas warnings
      else emitExternalEnum tds td schemas warnings
  else st

/-- Component schemas and generation warnings after both schema loops of
`generate_openapi`. -/
def makeComponentSchemas (tds : List TypeDefinition) : List (Str × J) × List Str :=
  tds.foldl (emitEnumTd tds) (makeBaseSchemas tds, [])


/-!  ## `_collect_inlined_fields`

The Python function recurses through flatten-marked fields whenever the
nested definition resolves, with no cycle protection.  It is embedded
with an explicit recursion budget: `none` means the budget was
exhausted, i.e. the Python recursion has not completed within that many
nested calls.  -/

/-- One output entry of `_collect_inlined_fields`:
`(field_name, rust_type, serialized_name, is_optional)`. -/
structure InlinedField where
  fieldName : Str
  rustType : Str
  serializedName : Str
  isOptional : Bool
deriving DecidableEq, Repr

def FieldEntry.toInlined (e : FieldEntry) : InlinedField :=
  ⟨e.fieldName, e.rustType, e.serializedName, e.isOptional⟩

mutual
/-- `_collect_inlined_fields` with a recursion budget. -/
def collectInlinedFields (tds : List TypeDefinition) :
    Nat → TypeDefinition → Option (List InlinedField)
  | 0, _ => none
  | Nat.succ fuel, td => collectFieldsGo tds fuel td.fields
termination_by n _ => (n, 0)

/-- The field loop of `_collect_inlined_fields`: flatten-marked fields
whose type resolves contribute the nested definition's recursively
inlined fields; all other fields contribute themselves. -/
def collectFieldsGo (tds : List TypeDefinition) :
    Nat → List FieldEntry → Option (List InlinedField)
  | _, [] => some []
  | fuel, e :: rest =>
    let headPart :=
      if e.isFlatten then
        match findTypeDefForRust tds e.rustType with
        | some nested => collectInlinedFields tds fuel nested
        | none => some [e.toInlined]
      else some [e.toInlined]
    match headPart, collectFieldsGo tds fuel rest with
    | some h, some t => some (h ++ t)
    | _, _ => none
termination_by n l => (n, l.length + 1)
end

/-!  ## Operations and paths (`generate_openapi`, third part)  -/

/-- `re.findall(r"\{([^}]+)\}", path)`: the non-empty brace-delimited
parameter names of a path template, left to right, non-overlapping. -/
def findBraceParams : Str → List Str
  | [] => []
  | c :: rest =>
    if c = '{' then
      let seg := rest.takeWhile (· ≠ '}')
      let restAfter := rest.drop seg.length
      if restAfter ≠ [] ∧ seg ≠ [] then
        seg :: findBraceParams restAfter.tail
      else findBraceParams rest
    else findBraceParams rest
termination_by s => s.length
decreasing_by
  · have h1 : (List.drop (rest.takeWhile (· ≠ '}')).length rest).tail.length
        ≤ (List.drop (rest.takeWhile (· ≠ '}')).length rest).length - 1 := by
      rw [List.length_tail]
    have h2 : (List.drop (rest.takeWhile (· ≠ '}')).length rest).length ≤ rest.length := by
      rw [List.length_drop]; omega
    simp only [List.length_cons]
    omega
  · simp only [List.length_cons]; omega
  · simp only [List.length_cons]; omega

/-- One `{'name': ..., 'in': 'path', 'required': True, ...}` parameter. -/
def pathParamJson (name : Str) : J :=
  J.obj [(str "name", J.s name), (str "in", J.s (str "path")),
         (str "required", J.b true),
         (str "schema", J.obj [(str "type", J.s (str "string"))])]

/-- The query parameters of an operation: the resolved query type's
inlined fields (each with its per-field requiredness), or the opaque
`query` object parameter when the type does not resolve. -/
def queryParams (tds : List TypeDefinition) (fuel : Nat) (ep : Endpoint) :
    Option (List J) :=
  if truthyOpt ep.queryType then
    match findTypeDefForRust tds (ep.queryType.getD []) with
    | some qTd =>
      (collectInlinedFields tds fuel qTd).map (fun inlined =>
        inlined.map (fun f =>
          let sName :=
            if truthyOpt qTd.renameAll ∧ f.serializedName = f.fieldName then
              applyIfRenameAll qTd.renameAll f.serializedName
            else f.serializedName
          J.obj [(str "name", J.s sName), (str "in", J.s (str "query")),
                 (str "required", J.b (!f.isOptional)),
                 (str "schema", rustSchemaForType tds f.rustType)]))
    | none =>
      some [J.obj [(str "name", J.s (str "query")), (str "in", J.s (str "query")),
                   (str "required", J.b false),
                   (str "schema", J.obj [(str "type", J.s (str "object"))])]]
  else some []

/-- The `'200'` response entry, with the schema replaced by a reference
when the response type resolves to a known definition. -/
def responsesJson (tds : List TypeDefinition) (ep : Endpoint) : J :=
  let schema :=
    if truthyOpt ep.responseType then
      match findTypeDefForRust tds (ep.responseType.getD []) with
      | some rTd => refSchema rTd.name
      | none => J.obj [(str "type", J.s (str "object"))]
    else J.obj [(str "type", J.s (str "object"))]
  J.obj [(str "200", J.obj
    [(str "description", J.s (str "OK")),
     (str "content", J.obj
       [(str "application/json", J.obj [(str "schema", schema)])])])]

/-- The operation dict before the parameter/body/security entries:
`{'summary': handler, 'responses': ...}`. -/
def operationBase (tds : List TypeDefinition) (ep : Endpoint) : List (Str × J) :=
  [(str "summary", J.s ep.handler), (str "responses", responsesJson tds ep)]

/-- Add the `parameters` entry when any parameter exists. -/
def operationWithParams (op : List (Str × J)) (params : List J) : List (Str × J) :=
  if !params.isEmpty then setKey op (str "parameters") (J.arr params) else op

/-- Add the `requestBody` entry when the endpoint has a (truthy) body
type and its method is not `DELETE`. -/
def operationWithBody (tds : List TypeDefinition) (ep : Endpoint)
    (op : List (Str × J)) : List (Str × J) :=
  if truthyOpt ep.bodyType ∧ upperStr ep.method ≠ str "DELETE" then
    let schemaRef :=
      match findTypeDefForRust tds (ep.bodyType.getD []) with
      | some bTd => refSchema bTd.name
      | none => J.obj [(str "type", J.s (str "object"))]
    setKey op (str "requestBody") (J.obj
      [(str "content", J.obj
        [(str "application/json", J.obj [(str "schema", schemaRef)])]),
       (str "required", J.b (!ep.bodyOptional))])
  else op

/-- Add the `security` entry when the endpoint requires
authentication. -/
def operationWithSecurity (ep : Endpoint) (op : List (Str × J)) : List (Str × J) :=
  if ep.authRequired then
    setKey op (str "security") (J.arr [J.obj [(str "bearerAuth", J.arr [])]])
  else op

/-- The operation dict built for one endpoint by `generate_openapi`
(`none` when the query-type flatten recursion does not complete within
the budget). -/
def makeOperation (tds : List TypeDefinition) (fuel : Nat) (ep : Endpoint) :
    Option (List (Str × J)) :=
  (queryParams tds fuel ep).map (fun qps =>
    operationWithSecurity ep (operationWithBody tds ep
      (operationWithParams (operationBase tds ep)
        (((findBraceParams ep.path).map pathParamJson) ++ qps))))

/-- The `paths` dict: per path, per lower-cased method, the operation. -/
def buildPathsAux (tds : List TypeDefinition) (fuel : Nat) :
    List Endpoint → List (Str × J) → Option (List (Str × J))
  | [], acc => some acc
  | ep :: rest, acc =>
    match makeOperation tds fuel ep with
    | none => none
    | some op =>
      let cur := match getKey? acc ep.path with
        | some (J.obj m) => m
        | _ => []
      buildPathsAux tds fuel rest
        (setKey acc ep.path (J.obj (setKey cur (lowerStr ep.method) (J.obj op))))

/-- Whether any endpoint of any module requires authentication
(`any(ep.auth_required for m in self.api_modules for ep in m.endpoints)`). -/
def anyAuthRequired (modules : List ApiModule) : Bool :=
  modules.any (fun m => m.endpoints.any (·.authRequired))

/-- The `components` dict: the schemas, plus the shared bearer security
scheme when any endpoint requires authentication. -/
def componentsJson (schemas : List (Str × J)) (modules : List ApiModule) :
    List (Str × J) :=
  if anyAuthRequired modules then
    setKey [(str "schemas", J.obj schemas)] (str "securitySchemes")
      (J.obj [(str "bearerAuth", J.obj
        [(str "type", J.s (str "http")), (str "scheme", J.s (str "bearer")),
         (str "bearerFormat", J.s (str "JWT"))])])
  else [(str "schemas", J.obj schemas)]

/-- The top-level document before warnings are attached. -/
def docBase (paths components : List (Str × J)) : List (Str × J) :=
  [(str "openapi", J.s (str "3.0.3")),
   (str "info", J.obj [(str "title", J.s (str "DIDHub API")),
                       (str "version", J.s (str "generated"))]),
   (str "paths", J.obj paths),
   (str "components", J.obj components)]

/-- Attach `x-generation-warnings` when any warning was recorded. -/
def attachWarnings (doc : List (Str × J)) (warnings : List Str) : List (Str × J) :=
  if !warnings.isEmpty then
    setKey doc (str "x-generation-warnings") (J.arr (warnings.map J.s))
  else doc

/-- The complete `generate_openapi` document (top-level key/value list),
`none` when a flatten recursion does not complete within the budget. -/
def generateOpenapi (tds : List TypeDefinition) (fuel : Nat)
    (modules : List ApiModule) : Option (List (Str × J)) :=
  (buildPathsAux tds fuel (modules.flatMap (·.endpoints)) []).map (fun paths =>
    attachWarnings
      (docBase paths (componentsJson (makeComponentSchemas tds).1 modules))
      (makeComponentSchemas tds).2)

/-!  ## Dict-lookup lemmas  -/

theorem getKey?_nil (k : Str) : getKey? [] k = none := rfl

theorem getKey?_cons (a : Str) (v : J) (rest : List (Str × J)) (k : Str) :
    getKey? ((a, v) :: rest) k = if a = k then some v else getKey? rest k := by
  simp only [getKey?, List.find?]
  by_cases h : a = k
  · simp [h]
  · simp [h]

theorem hasKey_nil (k : Str) : hasKey [] k = false := rfl

theorem hasKey_cons (a : Str) (v : J) (rest : List (Str × J)) (k : Str) :
    hasKey ((a, v) :: rest) k = (decide (a = k) || hasKey rest k) := by
  simp only [hasKey, getKey?_cons]
  by_cases h : a = k <;> simp [h]

theorem getKey?_setKey_self (kvs : List (Str × J)) (k : Str) (v : J) :
    getKey? (setKey kvs k v) k = some v := by
  induction kvs with
  | nil => simp [setKey, getKey?_cons]
  | cons hd tl ih =>
    rcases hd with ⟨a, w⟩
    by_cases h : a = k
    · subst h
      simp [setKey, getKey?_cons]
    · simp only [setKey, if_neg h, getKey?_cons, if_neg h]
      exact ih

theorem getKey?_setKey_other (kvs : List (Str × J)) (k : Str) (v : J) (k' : Str)
    (h : k' ≠ k) : getKey? (setKey kvs k v) k' = getKey? kvs k' := by
  induction kvs with
  | nil =>
    have : ¬ (k = k') := fun hh => h hh.symm
    simp [setKey, getKey?_cons, getKey?_nil, this]
  | cons hd tl ih =>
    rcases hd with ⟨a, w⟩
    by_cases hh : a = k
    · subst hh
      have hne : ¬ (a = k') := fun hc => h hc.symm
      simp [setKey, getKey?_cons, hne]
    · simp only [setKey, if_neg hh, getKey?_cons]
      by_cases hk' : a = k'
      · simp [hk']
      · simp only [if_neg hk']
        exact ih

theorem hasKey_setKey (kvs : List (Str × J)) (k : Str) (v : J) (k' : Str) :
    hasKey (setKey kvs k v) k' = (decide (k' = k) || hasKey kvs k') := by
  by_cases h : k' = k
  · subst h
    simp [hasKey, getKey?_setKey_self]
  · simp [hasKey, getKey?_setKey_other kvs k v k' h, h]

/-!  ## C2: recursive flatten inlining on mutually-flattening structs  -/

/-- A struct whose single field flattens the other struct. -/
def flattenTdOuter : TypeDefinition :=
  { name := str "ApiOuter"
    rustPath := str "crate::models::Outer"
    modulePath := str "crate::models"
    originalName := str "Outer"
    fields := [⟨str "inner", str "crate::models::Inner", str "inner", false, true⟩] }

/-- A struct whose single field flattens the first struct back. -/
def flattenTdInner : TypeDefinition :=
  { name := str "ApiInner"
    rustPath := str "crate::models::Inner"
    modulePath := str "crate::models"
    originalName := str "Inner"
    fields := [⟨str "outer", str "crate::models::Outer", str "outer", false, true⟩] }

def flattenDefs : List TypeDefinition := [flattenTdOuter, flattenTdInner]

theorem collect_single_flatten_step (tds : List TypeDefinition) (n : Nat)
    (td nested : TypeDefinition) (e : FieldEntry)
    (hf : td.fields = [e]) (hflat : e.isFlatten = true)
    (hfind : findTypeDefForRust tds e.rustType = some nested)
    (hnone : collectInlinedFields tds n nested = none) :
    collectInlinedFields tds (n + 1) td = none := by
  rw [collectInlinedFields, hf, collectFieldsGo]
  simp [hflat, hfind, hnone]

/-- C2: The flatten-inlining recursion of `_collect_inlined_fields` does
not terminate on two structs whose flatten-marked fields resolve to each
other: both flattened field types resolve to the opposite definition,
yet no recursion budget whatsoever lets the collection complete — the
Python original, which has no budget, recurses forever on this input
instead of producing a finite field list. -/
theorem collectInlinedFields_mutual_flatten_diverges :
    findTypeDefForRust flattenDefs (str "crate::models::Inner") = some flattenTdInner
    ∧ findTypeDefForRust flattenDefs (str "crate::models::Outer") = some flattenTdOuter
    ∧ ∀ fuel : Nat,
        collectInlinedFields flattenDefs fuel flattenTdOuter = none
        ∧ collectInlinedFields flattenDefs fuel flattenTdInner = none := by
  refine ⟨by decide, by decide, ?_⟩
  intro fuel
  induction fuel with
  | zero => exact ⟨by simp [collectInlinedFields], by simp [collectInlinedFields]⟩
  | succ n ih =>
    constructor
    · exact collect_single_flatten_step flattenDefs n flattenTdOuter flattenTdInner
        ⟨str "inner", str "crate::models::Inner", str "inner", false, true⟩
        rfl rfl (by decide) ih.2
    · exact collect_single_flatten_step flattenDefs n flattenTdInner flattenTdOuter
        ⟨str "outer", str "crate::models::Outer", str "outer", false, true⟩
        rfl rfl (by decide) ih.1

/-!  ## C9: request bodies, security requirements, security scheme  -/

theorem hasKey_operationWithParams (op : List (Str × J)) (params : List J)
    (k : Str) (hk : k ≠ str "parameters") :
    hasKey (operationWithParams op params) k = hasKey op k := by
  unfold operationWithParams
  by_cases hp : (!params.isEmpty) = true
  · rw [if_pos hp, hasKey_setKey]
    simp [hk]
  · rw [if_neg hp]

theorem hasKey_operationWithBody (tds : List TypeDefinition) (ep : Endpoint)
    (op : List (Str × J)) :
    hasKey (operationWithBody tds ep op) (str "requestBody")
      = ((truthyOpt ep.bodyType && !(upperStr ep.method = str "DELETE"))
          || hasKey op (str "requestBody")) := by
  unfold operationWithBody
  by_cases hb : truthyOpt ep.bodyType = true ∧ upperStr ep.method ≠ str "DELETE"
  · rw [if_pos hb, hasKey_setKey]
    simp [hb.1, hb.2]
  · rw [if_neg hb]
    rcases Decidable.not_and_iff_or_not.mp hb with h | h
    · simp [Bool.eq_false_iff.mpr h]
    · have : upperStr ep.method = str "DELETE" := not_not.mp h
      simp [this]

theorem hasKey_operationWithBody_other (tds : List TypeDefinition) (ep : Endpoint)
    (op : List (Str × J)) (k : Str) (hk : k ≠ str "requestBody") :
    hasKey (operationWithBody tds ep op) k = hasKey op k := by
  unfold operationWithBody
  by_cases hb : truthyOpt ep.bodyType = true ∧ upperStr ep.method ≠ str "DELETE"
  · rw [if_pos hb, hasKey_setKey]
    simp [hk]
  · rw [if_neg hb]

theorem hasKey_operationWithSecurity (ep : Endpoint) (op : List (Str × J)) :
    hasKey (operationWithSecurity ep op) (str "security")
      = (ep.authRequired || hasKey op (str "security")) := by
  unfold operationWithSecurity
  by_cases ha : ep.authRequired = true
  · rw [if_pos ha, hasKey_setKey, ha]
    simp
  · rw [if_neg ha]
    simp [Bool.eq_false_iff.mpr ha]

theorem hasKey_operationWithSecurity_other (ep : Endpoint) (op : List (Str × J))
    (k : Str) (hk : k ≠ str "security") :
    hasKey (operationWithSecurity ep op) k = hasKey op k := by
  unfold operationWithSecurity
  by_cases ha : ep.authRequired = true
  · rw [if_pos ha, hasKey_setKey]
    simp [hk]
  · rw [if_neg ha]

theorem hasKey_operationBase_requestBody (tds : List TypeDefinition) (ep : Endpoint) :
    hasKey (operationBase tds ep) (str "requestBody") = false := by
  unfold operationBase
  rw [hasKey_cons, hasKey_cons, hasKey_nil]
  decide

theorem hasKey_operationBase_security (tds : List TypeDefinition) (ep : Endpoint) :
    hasKey (operationBase tds ep) (str "security") = false := by
  unfold operationBase
  rw [hasKey_cons, hasKey_cons, hasKey_nil]
  decide

/-- C9: In an emitted operation, the `requestBody` entry is present
exactly when the endpoint's body type is present (non-empty) and the
upper-cased method is not `DELETE`; the `security` entry is present
exactly when the endpoint requires authentication; and the emitted
document's components carry the shared `securitySchemes` declaration
exactly when some endpoint of some module requires authentication. -/
theorem operation_requestBody_security_iff (tds : List TypeDefinition) (fuel : Nat) :
    (∀ (ep : Endpoint) (op : List (Str × J)),
      makeOperation tds fuel ep = some op →
      hasKey op (str "requestBody")
          = (truthyOpt ep.bodyType && !(upperStr ep.method = str "DELETE"))
        ∧ hasKey op (str "security") = ep.authRequired)
    ∧ (∀ (modules : List ApiModule) (doc : List (Str × J)),
        generateOpenapi tds fuel modules = some doc →
        ∃ comps, getKey? doc (str "components") = some (J.obj comps)
          ∧ hasKey comps (str "securitySchemes") = anyAuthRequired modules) := by
  constructor
  · intro ep op hop
    obtain ⟨qps, _, hf⟩ := Option.map_eq_some'.mp hop
    subst hf
    constructor
    · rw [hasKey_operationWithSecurity_other _ _ _ (by decide),
        hasKey_operationWithBody,
        hasKey_operationWithParams _ _ _ (by decide),
        hasKey_operationBase_requestBody]
      simp
    · rw [hasKey_operationWithSecurity,
        hasKey_operationWithBody_other _ _ _ _ (by decide),
        hasKey_operationWithParams _ _ _ (by decide),
        hasKey_operationBase_security]
      simp
  · intro modules doc hdoc
    obtain ⟨paths, _, hf⟩ := Option.map_eq_some'.mp hdoc
    subst hf
    refine ⟨componentsJson (makeComponentSchemas tds).1 modules, ?_, ?_⟩
    · have hbase : getKey? (docBase paths (componentsJson (makeComponentSchemas tds).1 modules))
          (str "components")
          = some (J.obj (componentsJson (makeComponentSchemas tds).1 modules)) := by
        unfold docBase
        rw [getKey?_cons, getKey?_cons, getKey?_cons, getKey?_cons]
        rw [if_neg (by decide), if_neg (by decide), if_neg (by decide), if_pos (by decide)]
      unfold attachWarnings
      by_cases hw : (!(makeComponentSchemas tds).2.isEmpty) = true
      · rw [if_pos hw, getKey?_setKey_other _ _ _ _ (by decide)]
        exact hbase
      · rw [if_neg hw]
        exact hbase
    · unfold componentsJson
      by_cases ha : anyAuthRequired modules = true
      · rw [if_pos ha, ha, hasKey_setKey]
        simp
      · rw [if_neg ha]
        rw [hasKey_cons, hasKey_nil, Bool.eq_false_iff.mpr ha]
        decide

/-- Concrete witness for C9: a POST endpoint with a body type and
authentication gets both entries; the hypotheses of
`operation_requestBody_security_iff` are discharged at that input. -/
def c9Endpoint : Endpoint :=
  { path := str "/posts", method := str "POST"
    handler := str "crate::routes::posts::create_post"
    authRequired := true
    bodyType := some (str "crate::routes::posts::CreatePostPayload") }

theorem operation_requestBody_security_iff_witness :
    hasKey (operationWithSecurity c9Endpoint (operationWithBody [] c9Endpoint
        (operationWithParams (operationBase [] c9Endpoint)
          (((findBraceParams c9Endpoint.path).map pathParamJson) ++ []))))
        (str "requestBody")
      = (truthyOpt c9Endpoint.bodyType
          && !(upperStr c9Endpoint.method = str "DELETE")) := by
  have h := (operation_requestBody_security_iff [] 0).1 c9Endpoint
    (operationWithSecurity c9Endpoint (operationWithBody [] c9Endpoint
      (operationWithParams (operationBase [] c9Endpoint)
        (((findBraceParams c9Endpoint.path).map pathParamJson) ++ []))))
    (by simp [makeOperation, queryParams, c9Endpoint, truthyOpt, truthyS])
  exact h.1

/-!  ## C1: the tagging style of an unmarked enum

`_parse_enum_definition` (parser.py) derives the enum tagging style from
the struct-level serde meta items; `generate_openapi` then picks its
emission branch from that style, defaulting to `'adjacent'` when the
style is absent.  -/

/-- One serde meta value: a bare flag (Python `True`) or an assigned
string (`rename = "x"`); `_parse_serde_meta_from_text` produces exactly
these two shapes. -/
inductive SerdeMetaVal where
  | flag
  | val (v : Str)
deriving DecidableEq, Repr

/-- The meta dict parsed from a `#[serde(...)]` attribute. -/
def SerdeMeta := List (Str × SerdeMetaVal)

def metaLookup (m : SerdeMeta) (k : Str) : Option SerdeMetaVal :=
  (m.find? (fun p => p.1 = k)).map (·.2)

/-- Python `k in meta`. -/
def metaHas (m : SerdeMeta) (k : Str) : Bool := (metaLookup m k).isSome

/-- Python `meta.get(k)` truthiness (`True` is truthy; a string is
truthy when non-empty; a missing key gives falsy `None`). -/
def metaTruthy (m : SerdeMeta) (k : Str) : Bool :=
  match metaLookup m k with
  | some SerdeMetaVal.flag => true
  | some (SerdeMetaVal.val v) => truthyS v
  | none => false

/-- Python `meta.get(k)` for the string-valued items (`tag = "..."`,
`content = "..."`; these are always written with string values). -/
def metaGetStr (m : SerdeMeta) (k : Str) : Option Str :=
  match metaLookup m k with
  | some (SerdeMetaVal.val v) => some v
  | _ => none

/-- The tagging-style derivation of `_parse_enum_definition`
(parser.py lines 1351–1361): `(enum_style, enum_tag, enum_content)`. -/
def deriveEnumStyle (meta : SerdeMeta) : Option Str × Option Str × Option Str :=
  if metaHas meta (str "tag") ∧ metaHas meta (str "content") then
    (some (str "adjacent"), metaGetStr meta (str "tag"), metaGetStr meta (str "content"))
  else if metaHas meta (str "tag") then
    (some (str "internally_tagged"), metaGetStr meta (str "tag"), none)
  else if metaTruthy meta (str "untagged") then
    (some (str "untagged"), none, none)
  else (none, none, none)

/-- A payload struct for the C1 input. -/
def c1Payload : TypeDefinition :=
  { name := str "ApiPayload"
    rustPath := str "crate::models::Payload"
    modulePath := str "crate::models"
    originalName := str "Payload"
    fields := [] }

/-- A public enum with one payload variant and one unit variant whose
attributes carry no tag, content, or untagged markers: per
`_parse_enum_definition` its `enum_style` is `None`. -/
def c1Enum : TypeDefinition :=
  { name := str "ApiEvent"
    rustPath := str "crate::models::Event"
    modulePath := str "crate::models"
    originalName := str "Event"
    fields := []
    isEnum := true
    variants := [⟨str "X", str "X", true, some (str "crate::models::Payload")⟩,
                 ⟨str "Y", str "Y", false, none⟩]
    enumStyle := none }

def c1Defs : List TypeDefinition := [c1Payload, c1Enum]

/-- The variant schema the claim (externally-tagged default) requires
for the payload variant `X`: an object whose single required property is
the discriminant, holding the payload reference.  This is also exactly
what the generator's own externally-tagged fallback branch emits. -/
def c1ClaimedExternalX : J :=
  J.obj [(str "type", J.s (str "object")),
         (str "properties", J.obj [(str "X", refSchema (str "ApiPayload"))]),
         (str "required", J.arr [J.s (str "X")])]

/-- The variant schema the code actually emits for `X`: the
adjacently-tagged shape with a `type` tag property and a `payload`
content property. -/
def c1ActualAdjacentX : J :=
  J.obj [(str "type", J.s (str "object")),
         (str "properties", J.obj [(str "type", tagValueSchema (str "X")),
                                   (str "payload", refSchema (str "ApiPayload"))]),
         (str "required", J.arr [J.s (str "type")])]

/-- C1: For an enum with no tag/content/untagged markers the parser
derives no tagging style (`None`, not external), and the
interface-description emitter then renders its payload variant in the
adjacently-tagged shape — a `type` tag property plus a `payload`
property, with a top-level discriminator — not in the externally-tagged
shape (single required property named by the discriminant) that the
claim requires; the externally-tagged branch of the same emitter would
have produced that shape. -/
theorem enum_default_style_renders_adjacent_not_external :
    (deriveEnumStyle []).1 = none
    ∧ styleOf c1Enum = str "adjacent"
    ∧ getKey? (makeComponentSchemas c1Defs).1 (str "ApiEventX") = some c1ActualAdjacentX
    ∧ (match getKey? (makeComponentSchemas c1Defs).1 (str "ApiEvent") with
       | some (J.obj kvs) => hasKey kvs (str "discriminator")
       | _ => false) = true
    ∧ (match c1ActualAdjacentX with
       | J.obj kvs => hasKey (compProps kvs) (str "X")
       | _ => true) = false
    ∧ (match c1ClaimedExternalX with
       | J.obj kvs => hasKey (compProps kvs) (str "X")
       | _ => false) = true
    ∧ getKey? ((emitExternalEnum c1Defs c1Enum (makeBaseSchemas c1Defs) []).1)
        (str "ApiEventX") = some c1ClaimedExternalX := by
  refine ⟨rfl, rfl, ?_, ?_, rfl, rfl, ?_⟩ <;> rfl

/-!  ## C8: internally-tagged enums whose payload declares the tag  -/

/-- C8: When an internally-tagged variant's payload resolves to a known
definition whose already-emitted component schema declares the tag
field, the emitted variant schema is the reference-based composition —
an `allOf` of the `$ref` to the payload component plus an object adding
only the tag property (the colliding field is neither overwritten nor
inlined) — the collision warning string is appended to the generation
warnings, and any non-empty warning list is attached to the document
under `x-generation-warnings` instead of failing generation. -/
theorem internal_tag_collision_keeps_ref_and_warns :
    (∀ (tds : List TypeDefinition) (schemas : List (Str × J)) (warnings : List Str)
      (tdName tagField : Str) (v : VariantEntry) (discVal : Str)
      (ptd : TypeDefinition) (compKvs : List (Str × J)),
      v.hasPayload = true →
      truthyOpt v.payloadType = true →
      findTypeDefForRust tds (v.payloadType.getD []) = some ptd →
      getKey? schemas ptd.name = some (J.obj compKvs) →
      compKvs ≠ [] →
      hasKey (compProps compKvs) tagField = true →
      internalVariantSchema tds schemas warnings tdName tagField v discVal
        = (J.obj [(str "allOf", J.arr
            [refSchema ptd.name,
             J.obj [(str "type", J.s (str "object")),
                    (str "properties", J.obj [(tagField, tagValueSchema discVal)]),
                    (str "required", J.arr [J.s tagField])]])],
           warnings ++ [collisionWarning ptd.name tagField]))
    ∧ (∀ (doc : List (Str × J)) (ws : List Str), ws ≠ [] →
        getKey? (attachWarnings doc ws) (str "x-generation-warnings")
          = some (J.arr (ws.map J.s))) := by
  constructor
  · intro tds schemas warnings tdName tagField v discVal ptd compKvs
      hpl htruthy hfind hcomp hne htag
    unfold internalVariantSchema
    rw [if_pos hpl, if_pos htruthy]
    simp only [hfind, hcomp]
    have hne' : (!compKvs.isEmpty) = true := by
      simp [List.isEmpty_iff, hne]
    rw [if_pos hne', if_pos htag]
  · intro doc ws hws
    unfold attachWarnings
    have hws' : (!ws.isEmpty) = true := by
      simp [List.isEmpty_iff, hws]
    rw [if_pos hws', getKey?_setKey_self]

/-- The concrete input of the repository's own regression test
(`test_collision_with_tag_field_warns`): a payload whose component
schema declares `kind`, and an internally-tagged enum with
`tag = "kind"`. -/
def c8Payload : TypeDefinition :=
  { name := str "ApiPayloadCollision"
    rustPath := str "crate::models::PayloadCollision"
    modulePath := str "crate::models"
    originalName := str "PayloadCollision"
    fields := [⟨str "kind", str "String", str "kind", true, false⟩,
               ⟨str "x", str "String", str "x", true, false⟩] }

def c8Variant : VariantEntry :=
  ⟨str "V", str "V", true, some (str "crate::models::PayloadCollision")⟩

def c8Schemas : List (Str × J) :=
  [(str "ApiPayloadCollision", J.obj
    [(str "type", J.s (str "object")),
     (str "properties", J.obj
       [(str "kind", J.obj [(str "type", J.s (str "string"))]),
        (str "x", J.obj [(str "type", J.s (str "string"))])])])]

theorem internal_tag_collision_keeps_ref_and_warns_witness :
    internalVariantSchema [c8Payload] c8Schemas [] (str "ApiEnumCol")
        (str "kind") c8Variant (str "V")
      = (J.obj [(str "allOf", J.arr
          [refSchema (str "ApiPayloadCollision"),
           J.obj [(str "type", J.s (str "object")),
                  (str "properties", J.obj [(str "kind", tagValueSchema (str "V"))]),
                  (str "required", J.arr [J.s (str "kind")])]])],
         [] ++ [collisionWarning (str "ApiPayloadCollision") (str "kind")]) :=
  internal_tag_collision_keeps_ref_and_warns.1 [c8Payload] c8Schemas []
    (str "ApiEnumCol") (str "kind") c8Variant (str "V") c8Payload
    [(str "type", J.s (str "object")),
     (str "properties", J.obj
       [(str "kind", J.obj [(str "type", J.s (str "string"))]),
        (str "x", J.obj [(str "type", J.s (str "string"))])])]
    rfl rfl (by decide) rfl (by simp) (by decide)

/-!  ## C3: splitting a route's method chain (`_parse_method_handlers`,
`_extract_method_handler`)  -/

/-- `config.VALID_HTTP_METHODS`.  The Python value is a set; iteration
order does not matter because no method name is a prefix of another, so
at most one alternative can match a given segment. -/
def validHttpMethods : List Str :=
  [str "get", str "post", str "put", str "delete", str "patch",
   str "head", str "options"]

/-- The skip test of `_parse_method_handlers`: a chain segment is kept
only when it starts with `<method>(` or `axum::routing::<method>(`. -/
def isHttpSegment (call : Str) : Bool :=
  validHttpMethods.any (fun m =>
    strStarts call (m ++ str "(") || strStarts call (str "axum::routing::" ++ m ++ str "("))

/-- The capture group of `\(\s*([^)]+)\s*\),?` applied to the text after
the opening parenthesis: the text up to the first `)`, which must be
non-empty, minus its leading whitespace (a single trailing whitespace
character survives as the capture when the content is all
whitespace). -/
def regexHandlerCapture (t : Str) : Option Str :=
  let seg := t.takeWhile (· ≠ ')')
  if seg.length = t.length then none
  else if seg = [] then none
  else
    let sp := seg.takeWhile isSpaceChar
    if sp.length = seg.length then some [seg.getLastD ' ']
    else some (seg.drop sp.length)

/-- `_extract_method_handler`. -/
def extractMethodHandler (s : Str) : Option (Str × Str) :=
  validHttpMethods.findSome? (fun m =>
    if strStarts s (m ++ str "(") then
      (regexHandlerCapture (s.drop (m.length + 1))).map (fun h => (m, h))
    else if strStarts s (str "axum::routing::" ++ m ++ str "(") then
      (regexHandlerCapture (s.drop ((str "axum::routing::" ++ m).length + 1))).map
        (fun h => (m, h))
    else none)

/-- The contribution of one dot-separated chain segment in
`_parse_method_handlers`: stripped, skipped when empty or not an
HTTP-method call, and otherwise the extracted `(method, handler)` pair
when both parts are truthy. -/
def chainSegmentPairs (call0 : Str) : List (Str × Str) :=
  let call := strip call0
  if call = [] then []
  else if !(isHttpSegment call) then []
  else
    match extractMethodHandler call with
    | some (m, h) => if truthyS m ∧ truthyS h then [(m, h)] else []
    | none => []

/-- `_parse_method_handlers`: split the chain at every dot and process
each segment. -/
def parseMethodHandlers (methodsStr : Str) : List (Str × Str) :=
  (splitOnChar '.' methodsStr).flatMap chainSegmentPairs

/-- C3 counterexample: the chain split does not track parenthesis depth,
so an HTTP-method call whose argument contains a nested call with a dot
in it yields no `(method, handler)` pair at all — refuting the claim
that such a call still yields its pair. -/
theorem parseMethodHandlers_dot_in_nested_call_loses_pair :
    parseMethodHandlers (str "get(a.b(c))") = []
    ∧ parseMethodHandlers (str "get(a.b(c))") ≠ [(str "get", str "a.b(c)")] := by
  constructor
  · rfl
  · intro h
    rw [show parseMethodHandlers (str "get(a.b(c))") = [] from rfl] at h
    exact absurd h (by decide)

/-- C3 (amended): `_parse_method_handlers` splits the chain at every
dot without tracking nesting: over dot-free segments it yields exactly
the per-segment pairs, non-HTTP segments (such as layering) are skipped
without error, a well-formed `method(handler)` segment yields its pair,
and a dot inside a nested call's parentheses terminates the segment so
that the enclosing HTTP-method call yields no pair. -/
theorem parseMethodHandlers_naive_dot_split :
    (∀ segs : List Str, (∀ s ∈ segs, '.' ∉ s) → segs ≠ [] →
      parseMethodHandlers (joinWithChar '.' segs) = segs.flatMap chainSegmentPairs)
    ∧ chainSegmentPairs (str "get(handler)") = [(str "get", str "handler")]
    ∧ chainSegmentPairs (str "layer(mw)") = []
    ∧ parseMethodHandlers (str "get(h).layer(tower.thing())") = [(str "get", str "h")] := by
  refine ⟨?_, rfl, rfl, rfl⟩
  intro segs hdot hne
  unfold parseMethodHandlers splitOnChar joinWithChar
  rw [List.splitOn_intercalate segs '.' hdot hne]

/-- Concrete witness for C3: the chain `get(h).layer(x)` over dot-free
segments; the hypotheses of `parseMethodHandlers_naive_dot_split` are
discharged at that input. -/
theorem parseMethodHandlers_naive_dot_split_witness :
    parseMethodHandlers (joinWithChar '.' [str "get(h)", str "layer(x)"])
      = [str "get(h)", str "layer(x)"].flatMap chainSegmentPairs :=
  parseMethodHandlers_naive_dot_split.1 [str "get(h)", str "layer(x)"]
    (by decide) (by decide)

/-!  ## C5: top-level splitting of generic parameters

Correctness of the generator's splitter is proved as a round-trip: any
comma-join of parts that are depth-neutral (balanced) and contain no
top-level comma splits back into exactly those parts.  The parser's
splitter, which ignores parentheses, mis-splits a tuple. -/

/-- The depth effect of one character under the generator's rules. -/
def depthStepG (c : Char) (ad pd : Int) : Int × Int :=
  if c = '<' then (ad + 1, pd)
  else if c = '>' then (ad - 1, pd)
  else if c = '(' then (ad, pd + 1)
  else if c = ')' then (ad, pd - 1)
  else (ad, pd)

/-- The depths after processing a string under the generator's rules. -/
def netG : Str → Int → Int → Int × Int
  | [], ad, pd => (ad, pd)
  | c :: rest, ad, pd => netG rest (depthStepG c ad pd).1 (depthStepG c ad pd).2

/-- No comma of the string occurs at depth `(0, 0)` when processing from
the given depths. -/
def noSplitG : Str → Int → Int → Bool
  | [], _, _ => true
  | c :: rest, ad, pd =>
    if c = ',' ∧ ad = 0 ∧ pd = 0 then false
    else noSplitG rest (depthStepG c ad pd).1 (depthStepG c ad pd).2

theorem sgpGAux_step (c : Char) (t cur : Str) (ad pd : Int)
    (h : ¬(c = ',' ∧ ad = 0 ∧ pd = 0)) :
    splitGenericParamsGAux (c :: t) cur ad pd
      = splitGenericParamsGAux t (cur ++ [c])
          (depthStepG c ad pd).1 (depthStepG c ad pd).2 := by
  by_cases h1 : c = '<'
  · subst h1; simp [splitGenericParamsGAux, depthStepG]
  by_cases h2 : c = '>'
  · subst h2; simp [splitGenericParamsGAux, depthStepG]
  by_cases h3 : c = '('
  · subst h3; simp [splitGenericParamsGAux, depthStepG]
  by_cases h4 : c = ')'
  · subst h4; simp [splitGenericParamsGAux, depthStepG]
  simp [splitGenericParamsGAux, depthStepG, h1, h2, h3, h4, h]

theorem noSplitG_step (c : Char) (t : Str) (ad pd : Int)
    (h : ¬(c = ',' ∧ ad = 0 ∧ pd = 0)) :
    noSplitG (c :: t) ad pd
      = noSplitG t (depthStepG c ad pd).1 (depthStepG c ad pd).2 := by
  simp [noSplitG, h]

theorem sgpGAux_cross (s : Str) : ∀ (rest cur : Str) (ad pd : Int),
    noSplitG s ad pd = true →
    splitGenericParamsGAux (s ++ rest) cur ad pd
      = splitGenericParamsGAux rest (cur ++ s) (netG s ad pd).1 (netG s ad pd).2 := by
  induction s with
  | nil => intro rest cur ad pd _; simp [netG]
  | cons c s' ih =>
    intro rest cur ad pd h
    have hcond : ¬(c = ',' ∧ ad = 0 ∧ pd = 0) := by
      intro hc
      rw [noSplitG, if_pos hc] at h
      exact absurd h (by decide)
    rw [noSplitG_step c s' ad pd hcond] at h
    have : (c :: s') ++ rest = c :: (s' ++ rest) := rfl
    rw [this, sgpGAux_step c (s' ++ rest) cur ad pd hcond,
      ih rest (cur ++ [c]) _ _ h]
    simp [netG]

theorem whitespace_not_special (c : Char) (h : isSpaceChar c = true) :
    c ≠ ',' ∧ c ≠ '<' ∧ c ≠ '>' ∧ c ≠ '(' ∧ c ≠ ')' ∧ c ≠ '|'
      ∧ c ≠ '{' ∧ c ≠ '}' ∧ c ≠ ':' ∧ c ≠ '.' := by
  simp [isSpaceChar, Char.isWhitespace] at h
  rcases h with ((h | h) | h) | h <;> subst h <;> exact ⟨by decide, by decide,
    by decide, by decide, by decide, by decide, by decide, by decide,
    by decide, by decide⟩

theorem spaces_neutral_G (sp : Str) (hsp : ∀ c ∈ sp, isSpaceChar c = true) :
    ∀ ad pd : Int, noSplitG sp ad pd = true ∧ netG sp ad pd = (ad, pd) := by
  induction sp with
  | nil => intro ad pd; exact ⟨rfl, rfl⟩
  | cons c rest ih =>
    intro ad pd
    have hc := whitespace_not_special c (hsp c (List.mem_cons_self _ _))
    have hrest : ∀ x ∈ rest, isSpaceChar x = true :=
      fun x hx => hsp x (List.mem_cons_of_mem _ hx)
    have hstep : depthStepG c ad pd = (ad, pd) := by
      simp [depthStepG, hc.2.1, hc.2.2.1, hc.2.2.2.1, hc.2.2.2.2.1]
    constructor
    · rw [noSplitG_step c rest ad pd (fun hcc => hc.1 hcc.1), hstep]
      exact (ih hrest ad pd).1
    · rw [netG, hstep]
      exact (ih hrest ad pd).2

theorem strip_space_prepend (sp p : Str) (hsp : ∀ c ∈ sp, isSpaceChar c = true) :
    strip (sp ++ p) = strip p := by
  unfold strip
  rw [List.dropWhile_append]
  have h : sp.dropWhile isSpaceChar = [] := List.dropWhile_eq_nil_iff.mpr hsp
  simp [h]

/-- A well-formed top-level parameter: balanced, no top-level comma,
already stripped, non-empty. -/
def okPartG (p : Str) : Prop :=
  noSplitG p 0 0 = true ∧ netG p 0 0 = (0, 0) ∧ strip p = p ∧ p ≠ []

theorem noSplitG_space_prepend (sp p : Str) (hsp : ∀ c ∈ sp, isSpaceChar c = true)
    (h : noSplitG p 0 0 = true) : noSplitG (sp ++ p) 0 0 = true := by
  induction sp with
  | nil => simpa using h
  | cons c sc ih =>
    have hc := whitespace_not_special c (hsp c (List.mem_cons_self _ _))
    have hstep : depthStepG c 0 0 = (0, 0) := by
      simp [depthStepG, hc.2.1, hc.2.2.1, hc.2.2.2.1, hc.2.2.2.2.1]
    rw [show (c :: sc) ++ p = c :: (sc ++ p) from rfl,
      noSplitG_step c (sc ++ p) 0 0 (fun hcc => hc.1 hcc.1), hstep]
    exact ih (fun x hx => hsp x (List.mem_cons_of_mem _ hx))

theorem netG_space_prepend (sp p : Str) (hsp : ∀ c ∈ sp, isSpaceChar c = true)
    (h : netG p 0 0 = (0, 0)) : netG (sp ++ p) 0 0 = (0, 0) := by
  induction sp with
  | nil => simpa using h
  | cons c sc ih =>
    have hc := whitespace_not_special c (hsp c (List.mem_cons_self _ _))
    have hstep : depthStepG c 0 0 = (0, 0) := by
      simp [depthStepG, hc.2.1, hc.2.2.1, hc.2.2.2.1, hc.2.2.2.2.1]
    rw [show (c :: sc) ++ p = c :: (sc ++ p) from rfl, netG, hstep]
    exact ih (fun x hx => hsp x (List.mem_cons_of_mem _ hx))

theorem sgpG_join_aux (parts : List Str) (h : ∀ p ∈ parts, okPartG p)
    (hne : parts ≠ []) :
    ∀ sp : Str, (∀ c ∈ sp, isSpaceChar c = true) →
      splitGenericParamsGAux (sp ++ [',', ' '].intercalate parts) [] 0 0 = parts := by
  induction parts with
  | nil => exact absurd rfl hne
  | cons p rest ih =>
    intro sp hsp
    obtain ⟨hns, hnet, hstrip, hpne⟩ := h p (List.mem_cons_self _ _)
    cases rest with
    | nil =>
      have hint : [',', ' '].intercalate [p] = p := by simp [List.intercalate]
      rw [hint]
      have hcross := sgpGAux_cross (sp ++ p) [] [] 0 0
        (noSplitG_space_prepend sp p hsp hns)
      rw [List.append_nil] at hcross
      rw [hcross, netG_space_prepend sp p hsp hnet]
      show splitGenericParamsGAux [] (sp ++ p) 0 0 = [p]
      rw [splitGenericParamsGAux, strip_space_prepend sp p hsp, hstrip, if_pos hpne]
    | cons q t =>
      have hint : [',', ' '].intercalate (p :: q :: t)
          = p ++ [','] ++ (' ' :: [',', ' '].intercalate (q :: t)) := by
        simp [List.intercalate]
      rw [hint]
      rw [show sp ++ (p ++ [','] ++ (' ' :: [',', ' '].intercalate (q :: t)))
          = (sp ++ p) ++ (',' :: (' ' :: [',', ' '].intercalate (q :: t))) by
        simp [List.append_assoc]]
      have hcross := sgpGAux_cross (sp ++ p)
        (',' :: (' ' :: [',', ' '].intercalate (q :: t))) [] 0 0
        (noSplitG_space_prepend sp p hsp hns)
      rw [hcross, netG_space_prepend sp p hsp hnet]
      show splitGenericParamsGAux
        (',' :: (' ' :: [',', ' '].intercalate (q :: t))) ([] ++ (sp ++ p)) 0 0
        = p :: q :: t
      rw [splitGenericParamsGAux]
      rw [if_neg (by decide), if_neg (by decide), if_neg (by decide),
        if_neg (by decide), if_pos ⟨rfl, rfl, rfl⟩]
      rw [List.nil_append, strip_space_prepend sp p hsp, hstrip, if_pos hpne]
      have hrest : ∀ x ∈ q :: t, okPartG x :=
        fun x hx => h x (List.mem_cons_of_mem _ hx)
      have hihs := ih hrest (by simp) [' ']
        (by intro c hc; simp at hc; subst hc; rfl)
      rw [show (' ' :: [',', ' '].intercalate (q :: t))
          = [' '] ++ [',', ' '].intercalate (q :: t) from rfl, hihs]
      rfl

/-- C5 counterexample: the parser's `_split_generic_params` tracks only
angle-bracket depth, so the comma inside the tuple `(A, B)` is treated
as a top-level separator — refuting the claim for that copy of the
splitter. -/
theorem splitGenericParamsP_paren_comma_counterexample :
    splitGenericParamsP (str "(A, B), C") = [str "(A", str "B)", str "C"]
    ∧ splitGenericParamsP (str "(A, B), C") ≠ [str "(A, B)", str "C"] := by
  exact ⟨rfl, by decide⟩

/-- C5 (amended): the generator's `_split_generic_params` balances both
angle brackets and parentheses — any comma-join of balanced,
top-level-comma-free, stripped, non-empty parameters splits back into
exactly those parameters, and the tuple example splits correctly — while
the parser's copy balances only angle brackets and splits inside the
parentheses of a tuple. -/
theorem splitGenericParams_balancing :
    (∀ parts : List Str, (∀ p ∈ parts, okPartG p) → parts ≠ [] →
      splitGenericParamsG ([',', ' '].intercalate parts) = parts)
    ∧ splitGenericParamsG (str "(A, B), C") = [str "(A, B)", str "C"]
    ∧ splitGenericParamsG (str "Vec<(String, i64)>, HashMap<String, u32>")
        = [str "Vec<(String, i64)>", str "HashMap<String, u32>"]
    ∧ splitGenericParamsP (str "(A, B), C") = [str "(A", str "B)", str "C"] := by
  refine ⟨?_, rfl, rfl, rfl⟩
  intro parts h hne
  have := sgpG_join_aux parts h hne [] (by intro c hc; simp at hc)
  simpa [splitGenericParamsG] using this

/-- Concrete witness for C5: the hypotheses of
`splitGenericParams_balancing` are discharged on two concrete balanced
parameters. -/
theorem splitGenericParams_balancing_witness :
    splitGenericParamsG ([',', ' '].intercalate [str "Vec<A>", str "(B, C)"])
      = [str "Vec<A>", str "(B, C)"] :=
  splitGenericParams_balancing.1 [str "Vec<A>", str "(B, C)"]
    (by
      intro p hp
      simp only [List.mem_cons, List.mem_singleton] at hp
      rcases hp with h | h | h
      · subst h
        exact ⟨rfl, rfl, rfl, by decide⟩
      · subst h
        exact ⟨rfl, rfl, rfl, by decide⟩
      · cases h)
    (by decide)

/-!  ## C4: collision-free deterministic naming (`_normalize_type_names`,
`_build_module_suffix`, `_unique_name`, `_to_pascal_case`)  -/

/-- Python re.split at any of the underscore, hyphen, or slash
delimiter characters. -/
def splitAnyAux (delims : List Char) : Str → Str → List Str
  | [], cur => [cur]
  | c :: rest, cur =>
    if delims.contains c then cur :: splitAnyAux delims rest []
    else splitAnyAux delims rest (cur ++ [c])

/-- `part[:1].upper() + part[1:]`. -/
def upperFirst : Str → Str
  | [] => []
  | c :: rest => c.toUpper :: rest

/-- `generator.TypeScriptGenerator._to_pascal_case`. -/
def toPascalCase (value : Str) : Str :=
  (((splitAnyAux ['_', '-', '/'] value []).filter (· ≠ [])).map upperFirst).flatten

/-- The decimal digits of `n`, least significant first (empty for 0). -/
def natDigitsRev (n : Nat) : List Nat :=
  if h : n = 0 then [] else (n % 10) :: natDigitsRev (n / 10)
termination_by n
decreasing_by
  exact Nat.div_lt_self (Nat.pos_of_ne_zero h) (by decide)

/-- A decimal digit character. -/
def digitChar (d : Nat) : Char :=
  ['0', '1', '2', '3', '4', '5', '6', '7', '8', '9'].getD d '0'

/-- Python `str(n)` for a non-negative integer. -/
def natRepr (n : Nat) : Str :=
  if n = 0 then ['0'] else ((natDigitsRev n).reverse).map digitChar

/-- The value of a least-significant-first digit list. -/
def ofDigitsRev : List Nat → Nat
  | [] => 0
  | d :: rest => d + 10 * ofDigitsRev rest

theorem ofDigitsRev_natDigitsRev (n : Nat) : ofDigitsRev (natDigitsRev n) = n := by
  induction n using Nat.strong_induction_on with
  | _ n ih =>
    by_cases h : n = 0
    · subst h
      rw [natDigitsRev]
      simp [ofDigitsRev]
    · rw [natDigitsRev, dif_neg h, ofDigitsRev,
        ih (n / 10) (Nat.div_lt_self (Nat.pos_of_ne_zero h) (by decide))]
      omega

theorem natDigitsRev_injective (n m : Nat) (h : natDigitsRev n = natDigitsRev m) :
    n = m := by
  rw [← ofDigitsRev_natDigitsRev n, ← ofDigitsRev_natDigitsRev m, h]

theorem natDigitsRev_lt_ten (n : Nat) : ∀ d ∈ natDigitsRev n, d < 10 := by
  induction n using Nat.strong_induction_on with
  | _ n ih =>
    by_cases h : n = 0
    · subst h; rw [natDigitsRev]; simp
    · rw [natDigitsRev, dif_neg h]
      intro d hd
      rcases List.mem_cons.mp hd with h1 | h1
      · subst h1; exact Nat.mod_lt _ (by decide)
      · exact ih (n / 10) (Nat.div_lt_self (Nat.pos_of_ne_zero h) (by decide)) d h1

theorem digitChar_injective_lt :
    ∀ d1 < 10, ∀ d2 < 10, digitChar d1 = digitChar d2 → d1 = d2 := by decide

theorem map_digitChar_injective (l1 l2 : List Nat) (h1 : ∀ d ∈ l1, d < 10)
    (h2 : ∀ d ∈ l2, d < 10) (h : l1.map digitChar = l2.map digitChar) : l1 = l2 := by
  induction l1 generalizing l2 with
  | nil => cases l2 with
    | nil => rfl
    | cons b bs => simp at h
  | cons a as ih =>
    cases l2 with
    | nil => simp at h
    | cons b bs =>
      simp only [List.map_cons, List.cons.injEq] at h
      have hd := digitChar_injective_lt a (h1 a (List.mem_cons_self _ _))
        b (h2 b (List.mem_cons_self _ _)) h.1
      have htl := ih bs (fun d hd' => h1 d (List.mem_cons_of_mem _ hd'))
        (fun d hd' => h2 d (List.mem_cons_of_mem _ hd')) h.2
      rw [hd, htl]

theorem natRepr_injective (n m : Nat) (h : natRepr n = natRepr m) : n = m := by
  unfold natRepr at h
  by_cases hn : n = 0 <;> by_cases hm : m = 0
  · omega
  · rw [if_pos hn, if_neg hm] at h
    have : (natDigitsRev m).reverse = [0] := by
      have := map_digitChar_injective (natDigitsRev m).reverse [0]
        (by intro d hd; exact natDigitsRev_lt_ten m d (List.mem_reverse.mp hd))
        (by intro d hd; simp at hd; omega) (by rw [← h]; rfl)
      exact this
    have hdig : natDigitsRev m = [0] := by
      have := congrArg List.reverse this
      simpa using this
    have := ofDigitsRev_natDigitsRev m
    rw [hdig] at this
    simp [ofDigitsRev] at this
    omega
  · rw [if_neg hn, if_pos hm] at h
    have : (natDigitsRev n).reverse = [0] := by
      have := map_digitChar_injective (natDigitsRev n).reverse [0]
        (by intro d hd; exact natDigitsRev_lt_ten n d (List.mem_reverse.mp hd))
        (by intro d hd; simp at hd; omega) (by rw [h]; rfl)
      exact this
    have hdig : natDigitsRev n = [0] := by
      have := congrArg List.reverse this
      simpa using this
    have := ofDigitsRev_natDigitsRev n
    rw [hdig] at this
    simp [ofDigitsRev] at this
    omega
  · rw [if_neg hn, if_neg hm] at h
    have := map_digitChar_injective (natDigitsRev n).reverse (natDigitsRev m).reverse
      (by intro d hd; exact natDigitsRev_lt_ten n d (List.mem_reverse.mp hd))
      (by intro d hd; exact natDigitsRev_lt_ten m d (List.mem_reverse.mp hd)) h
    have := congrArg List.reverse this
    simp only [List.reverse_reverse] at this
    exact natDigitsRev_injective n m this

theorem exists_fresh_suffix (candidate : Str) (used : List Str) :
    ∃ k : Nat, candidate ++ natRepr (2 + k) ∉ used := by
  by_contra hall
  push_neg at hall
  have hinj : Function.Injective (fun k : Nat => candidate ++ natRepr (2 + k)) := by
    intro a b hab
    simp only at hab
    have := List.append_cancel_left hab
    have := natRepr_injective _ _ this
    omega
  have hsub : ((List.range (used.length + 1)).map
      (fun k => candidate ++ natRepr (2 + k))).toFinset ⊆ used.toFinset := by
    intro x hx
    rw [List.mem_toFinset] at hx ⊢
    obtain ⟨k, _, hk⟩ := List.mem_map.mp hx
    rw [← hk]
    exact hall k
  have hnodup : ((List.range (used.length + 1)).map
      (fun k => candidate ++ natRepr (2 + k))).Nodup :=
    (List.nodup_range _).map hinj
  have hcard1 : ((List.range (used.length + 1)).map
      (fun k => candidate ++ natRepr (2 + k))).toFinset.card = used.length + 1 := by
    rw [List.toFinset_card_of_nodup hnodup, List.length_map, List.length_range]
  have hcard2 := Finset.card_le_card hsub
  have hcard3 := used.toFinset_card_le
  omega

/-- `_unique_name`: the candidate itself when fresh, else the candidate
plus the least numeric suffix starting at 2 that is fresh. -/
def uniqueName (candidate : Str) (used : List Str) : Str :=
  if candidate ∈ used then
    candidate ++ natRepr (2 + Nat.find (exists_fresh_suffix candidate used))
  else candidate

theorem uniqueName_not_mem (candidate : Str) (used : List Str) :
    uniqueName candidate used ∉ used := by
  unfold uniqueName
  by_cases h : candidate ∈ used
  · rw [if_pos h]
    exact Nat.find_spec (exists_fresh_suffix candidate used)
  · rw [if_neg h]
    exact h

theorem uniqueName_shape (candidate : Str) (used : List Str) :
    uniqueName candidate used = candidate
    ∨ ∃ j, 2 ≤ j ∧ uniqueName candidate used = candidate ++ natRepr j := by
  unfold uniqueName
  by_cases h : candidate ∈ used
  · rw [if_pos h]
    exact Or.inr ⟨2 + Nat.find (exists_fresh_suffix candidate used), by omega, rfl⟩
  · rw [if_neg h]
    exact Or.inl rfl

/-- The normalized (title-cased) form of a definition's original name,
the grouping key of `_normalize_type_names`. -/
def baseOf (td : TypeDefinition) : Str := toPascalCase td.originalName

/-- `_build_module_suffix`: the last one or two non-`crate` segments of
the module path, title-cased and concatenated. -/
def buildModuleSuffix (modulePath : Str) : Str :=
  let parts := (splitDColon modulePath).filter (fun p => p ≠ [] ∧ p ≠ str "crate")
  if parts = [] then []
  else
    let tail := if parts.length > 1 then parts.drop (parts.length - 2) else parts
    (tail.map toPascalCase).flatten

/-- First-occurrence order of the normalized base names (the key order
of the insertion-ordered grouping dict). -/
def baseKeysAux (seen : List Str) : List TypeDefinition → List Str
  | [] => []
  | td :: rest =>
    if seen.contains (baseOf td) then baseKeysAux seen rest
    else baseOf td :: baseKeysAux (baseOf td :: seen) rest

/-- The grouping `by_base` of `_normalize_type_names`. -/
def groupsOf (tds : List TypeDefinition) : List (Str × List TypeDefinition) :=
  (baseKeysAux [] tds).map (fun b => (b, tds.filter (fun td => baseOf td = b)))

/-- The candidate name for one definition of a multi-definition group. -/
def multiCandidate (base : Str) (td : TypeDefinition) : Str :=
  if buildModuleSuffix td.modulePath ≠ [] then
    str "Api" ++ buildModuleSuffix td.modulePath ++ base
  else str "Api" ++ base

/-- The per-definition loop of the multi-definition branch of
`_normalize_type_names`, threading the used-name set. -/
def assignMulti (base : Str) : List TypeDefinition → List Str →
    List (TypeDefinition × Str) × List Str
  | [], used => ([], used)
  | td :: rest, used =>
    let n := uniqueName (multiCandidate base td) used
    let result := assignMulti base rest (n :: used)
    ((td, n) :: result.1, result.2)

/-- The group loop of `_normalize_type_names`. -/
def assignGroups : List (Str × List TypeDefinition) → List Str →
    List (TypeDefinition × Str)
  | [], _ => []
  | (base, defs) :: rest, used =>
    if defs.length = 1 then
      let n := uniqueName (str "Api" ++ base) used
      defs.map (fun td => (td, n)) ++ assignGroups rest (n :: used)
    else
      let result := assignMulti base defs used
      result.1 ++ assignGroups rest result.2

/-- `_normalize_type_names` as a name-assignment list: each definition
paired with its final name, in the order the names are assigned. -/
def normalizeAssignments (tds : List TypeDefinition) : List (TypeDefinition × Str) :=
  assignGroups (groupsOf tds) []

theorem assignMulti_spec (base : Str) (defs : List TypeDefinition) :
    ∀ used : List Str,
      ((assignMulti base defs used).1.map (·.2)).Nodup
      ∧ (∀ n ∈ (assignMulti base defs used).1.map (·.2), n ∉ used)
      ∧ (∀ n ∈ (assignMulti base defs used).1.map (·.2), n ∈ (assignMulti base defs used).2)
      ∧ (∀ n ∈ used, n ∈ (assignMulti base defs used).2) := by
  induction defs with
  | nil =>
    intro used
    refine ⟨by simp [assignMulti], by simp [assignMulti], by simp [assignMulti], ?_⟩
    intro n hn
    simpa [assignMulti] using hn
  | cons td rest ih =>
    intro used
    obtain ⟨ihNodup, ihFresh, ihIn, ihMono⟩ :=
      ih (uniqueName (multiCandidate base td) used :: used)
    have hfresh := uniqueName_not_mem (multiCandidate base td) used
    refine ⟨?_, ?_, ?_, ?_⟩
    · simp only [assignMulti, List.map_cons, List.nodup_cons]
      refine ⟨?_, ihNodup⟩
      intro hmem
      exact (ihFresh _ hmem) (List.mem_cons_self _ _)
    · intro n hn
      simp only [assignMulti, List.map_cons, List.mem_cons] at hn
      rcases hn with h | h
      · subst h; exact hfresh
      · intro hmem
        exact (ihFresh n h) (List.mem_cons_of_mem _ hmem)
    · intro n hn
      simp only [assignMulti, List.map_cons, List.mem_cons] at hn ⊢
      rcases hn with h | h
      · subst h
        exact ihMono _ (List.mem_cons_self _ _)
      · exact ihIn n h
    · intro n hn
      exact ihMono n (List.mem_cons_of_mem _ hn)

theorem assignGroups_spec (gs : List (Str × List TypeDefinition)) :
    ∀ used : List Str,
      ((assignGroups gs used).map (·.2)).Nodup
      ∧ (∀ n ∈ (assignGroups gs used).map (·.2), n ∉ used) := by
  induction gs with
  | nil => intro used; simp [assignGroups]
  | cons g rest ih =>
    intro used
    rcases g with ⟨base, defs⟩
    by_cases hlen : defs.length = 1
    · obtain ⟨td, hdefs⟩ := List.length_eq_one.mp hlen
      subst hdefs
      obtain ⟨ihNodup, ihFresh⟩ := ih (uniqueName (str "Api" ++ base) used :: used)
      have hfresh := uniqueName_not_mem (str "Api" ++ base) used
      constructor
      · simp only [assignGroups, if_pos hlen, List.map_append, List.map_cons,
          List.map_nil, List.map_map]
        rw [List.nodup_append]
        refine ⟨by simp, ihNodup, ?_⟩
        intro n hn hn'
        simp at hn
        subst hn
        exact (ihFresh _ (by simpa using hn')) (List.mem_cons_self _ _)
      · intro n hn
        simp only [assignGroups, if_pos hlen, List.map_append, List.mem_append] at hn
        rcases hn with h | h
        · simp at h
          subst h
          exact hfresh
        · intro hmem
          exact (ihFresh n h) (List.mem_cons_of_mem _ hmem)
    · obtain ⟨mNodup, mFresh, mIn, mMono⟩ := assignMulti_spec base defs used
      obtain ⟨ihNodup, ihFresh⟩ := ih (assignMulti base defs used).2
      constructor
      · simp only [assignGroups, if_neg hlen, List.map_append]
        rw [List.nodup_append]
        refine ⟨mNodup, ihNodup, ?_⟩
        intro n hn hn'
        exact (ihFresh n hn') (mIn n hn)
      · intro n hn
        simp only [assignGroups, if_neg hlen, List.map_append, List.mem_append] at hn
        rcases hn with h | h
        · exact mFresh n h
        · intro hmem
          exact (ihFresh n h) (mMono n hmem)

theorem assignMulti_mem_shape (base : Str) (defs : List TypeDefinition) :
    ∀ (used : List Str) (td : TypeDefinition) (n : Str),
      (td, n) ∈ (assignMulti base defs used).1 →
      ∃ u0, n = uniqueName (multiCandidate base td) u0 := by
  induction defs with
  | nil => intro used td n h; simp [assignMulti] at h
  | cons hd rest ih =>
    intro used td n h
    simp only [assignMulti, List.mem_cons] at h
    rcases h with h | h
    · have h1 : td = hd := congrArg Prod.fst h
      have h2 : n = uniqueName (multiCandidate base hd) used := congrArg Prod.snd h
      subst h1
      exact ⟨used, h2⟩
    · exact ih _ td n h

theorem assignGroups_mem (gs : List (Str × List TypeDefinition)) :
    ∀ (used : List Str) (td : TypeDefinition) (n : Str),
      (td, n) ∈ assignGroups gs used →
      ∃ base defs, (base, defs) ∈ gs ∧ td ∈ defs ∧
        ((defs.length = 1 ∧ ∃ u0, n = uniqueName (str "Api" ++ base) u0)
          ∨ (defs.length ≠ 1 ∧ ∃ u0, n = uniqueName (multiCandidate base td) u0)) := by
  induction gs with
  | nil => intro used td n h; simp [assignGroups] at h
  | cons g rest ih =>
    intro used td n h
    rcases g with ⟨base, defs⟩
    by_cases hlen : defs.length = 1
    · simp only [assignGroups, if_pos hlen, List.mem_append] at h
      rcases h with h | h
      · obtain ⟨td', htd', hpair⟩ := List.mem_map.mp h
        have h1 : td = td' := (congrArg Prod.fst hpair).symm
        have h2 : n = uniqueName (str "Api" ++ base) used :=
          (congrArg Prod.snd hpair).symm
        subst h1
        exact ⟨base, defs, List.mem_cons_self _ _, htd', Or.inl ⟨hlen, used, h2⟩⟩
      · obtain ⟨b, d, hmem, htd, hsh⟩ := ih _ td n h
        exact ⟨b, d, List.mem_cons_of_mem _ hmem, htd, hsh⟩
    · simp only [assignGroups, if_neg hlen, List.mem_append] at h
      rcases h with h | h
      · obtain ⟨u0, hu⟩ := assignMulti_mem_shape base defs used td n h
        have htd : td ∈ defs := by
          have : ∀ (ds : List TypeDefinition) (u : List Str),
              (td, n) ∈ (assignMulti base ds u).1 → td ∈ ds := by
            intro ds
            induction ds with
            | nil => intro u hh; simp [assignMulti] at hh
            | cons x xs ihx =>
              intro u hh
              simp only [assignMulti, List.mem_cons] at hh
              rcases hh with hh | hh
              · rw [show td = x from congrArg Prod.fst hh]
                exact List.mem_cons_self _ _
              · exact List.mem_cons_of_mem _ (ihx _ hh)
          exact this defs used h
        exact ⟨base, defs, List.mem_cons_self _ _, htd, Or.inr ⟨hlen, u0, hu⟩⟩
      · obtain ⟨b, d, hmem, htd, hsh⟩ := ih _ td n h
        exact ⟨b, d, List.mem_cons_of_mem _ hmem, htd, hsh⟩

theorem mem_groupsOf (tds : List TypeDefinition) (base : Str)
    (defs : List TypeDefinition)
    (h : (base, defs) ∈ groupsOf tds) :
    defs = tds.filter (fun td => baseOf td = base) := by
  obtain ⟨b, _, hb⟩ := List.mem_map.mp h
  have h1 : b = base := congrArg Prod.fst hb
  have h2 : tds.filter (fun td => baseOf td = b) = defs := congrArg Prod.snd hb
  rw [← h2, h1]

/-- The candidate name the claim's rules assign to a definition before
any numeric suffix: the fixed prefix plus the normalized name when the
normalized name is unique in the input list, else the prefix plus the
module tag plus the name. -/
def baseCandidate (tds : List TypeDefinition) (td : TypeDefinition) : Str :=
  if (tds.filter (fun t => baseOf t = baseOf td)).length = 1 then
    str "Api" ++ baseOf td
  else multiCandidate (baseOf td) td

theorem normalizeAssignments_shape (tds : List TypeDefinition)
    (td : TypeDefinition) (n : Str) (h : (td, n) ∈ normalizeAssignments tds) :
    n = baseCandidate tds td
    ∨ ∃ j, 2 ≤ j ∧ n = baseCandidate tds td ++ natRepr j := by
  obtain ⟨base, defs, hgs, htd, hsh⟩ := assignGroups_mem (groupsOf tds) [] td n h
  have hdefs := mem_groupsOf tds base defs hgs
  have hbase : baseOf td = base := by
    rw [hdefs] at htd
    exact of_decide_eq_true (List.mem_filter.mp htd).2
  subst hbase
  rcases hsh with ⟨hlen, u0, hu⟩ | ⟨hlen, u0, hu⟩
  · have hcand : baseCandidate tds td = str "Api" ++ baseOf td := by
      unfold baseCandidate
      rw [if_pos (by rw [← hdefs]; exact hlen)]
    rw [hcand, hu]
    rcases uniqueName_shape (str "Api" ++ baseOf td) u0 with h1 | ⟨j, hj, h1⟩
    · exact Or.inl h1
    · exact Or.inr ⟨j, hj, h1⟩
  · have hcand : baseCandidate tds td = multiCandidate (baseOf td) td := by
      unfold baseCandidate
      rw [if_neg (by rw [← hdefs]; exact hlen)]
    rw [hcand, hu]
    rcases uniqueName_shape (multiCandidate (baseOf td) td) u0 with h1 | ⟨j, hj, h1⟩
    · exact Or.inl h1
    · exact Or.inr ⟨j, hj, h1⟩

/-- The attributes the naming pass reads from a definition: its original
name and its module path. -/
def projNM (td : TypeDefinition) : Str × Str := (td.originalName, td.modulePath)

theorem baseKeysAux_proj (tds : List TypeDefinition) :
    ∀ (tds' : List TypeDefinition), tds.map projNM = tds'.map projNM →
    ∀ seen, baseKeysAux seen tds = baseKeysAux seen tds' := by
  induction tds with
  | nil =>
    intro tds' h seen
    cases tds' with
    | nil => rfl
    | cons x xs => simp at h
  | cons td rest ih =>
    intro tds' h seen
    cases tds' with
    | nil => simp at h
    | cons td' rest' =>
      simp only [List.map_cons, List.cons.injEq] at h
      have hbase : baseOf td = baseOf td' := by
        unfold baseOf
        rw [show td.originalName = td'.originalName from congrArg Prod.fst h.1]
      rw [baseKeysAux, baseKeysAux, hbase]
      by_cases hc : seen.contains (baseOf td') = true
      · rw [if_pos hc, if_pos hc]
        exact ih rest' h.2 seen
      · rw [if_neg hc, if_neg hc, ih rest' h.2 (baseOf td' :: seen)]

theorem filter_baseOf_proj (tds tds' : List TypeDefinition)
    (h : tds.map projNM = tds'.map projNM) (b : Str) :
    (tds.filter (fun td => baseOf td = b)).map projNM
      = (tds'.filter (fun td => baseOf td = b)).map projNM := by
  have hcomm : ∀ (l : List TypeDefinition),
      (l.filter (fun td => baseOf td = b)).map projNM
        = (l.map projNM).filter (fun p => toPascalCase p.1 = b) := by
    intro l
    induction l with
    | nil => rfl
    | cons a as ihl =>
      simp only [List.filter_cons, List.map_cons]
      by_cases hp : baseOf a = b
      · rw [if_pos (by simpa using hp), if_pos (by simpa [baseOf] using hp)]
        simp [ihl]
      · rw [if_neg (by simpa using hp), if_neg (by simpa [baseOf] using hp)]
        exact ihl
  rw [hcomm, hcomm, h]

theorem assignMulti_proj (base : Str) (defs : List TypeDefinition) :
    ∀ (defs' : List TypeDefinition), defs.map projNM = defs'.map projNM →
    ∀ used, (assignMulti base defs used).1.map (·.2)
        = (assignMulti base defs' used).1.map (·.2)
      ∧ (assignMulti base defs used).2 = (assignMulti base defs' used).2 := by
  induction defs with
  | nil =>
    intro defs' h used
    cases defs' with
    | nil => exact ⟨rfl, rfl⟩
    | cons x xs => simp at h
  | cons td rest ih =>
    intro defs' h used
    cases defs' with
    | nil => simp at h
    | cons td' rest' =>
      simp only [List.map_cons, List.cons.injEq] at h
      have hc : multiCandidate base td = multiCandidate base td' := by
        unfold multiCandidate
        rw [show td.modulePath = td'.modulePath from congrArg Prod.snd h.1]
      have := ih rest' h.2 (uniqueName (multiCandidate base td') used :: used)
      simp only [assignMulti, List.map_cons, hc]
      exact ⟨by rw [this.1], this.2⟩

theorem assignGroups_proj (gs : List (Str × List TypeDefinition)) :
    ∀ (gs' : List (Str × List TypeDefinition)),
      gs.map (fun g => (g.1, g.2.map projNM)) = gs'.map (fun g => (g.1, g.2.map projNM)) →
      ∀ used, (assignGroups gs used).map (·.2) = (assignGroups gs' used).map (·.2) := by
  induction gs with
  | nil =>
    intro gs' h used
    cases gs' with
    | nil => rfl
    | cons x xs => simp at h
  | cons g rest ih =>
    intro gs' h used
    cases gs' with
    | nil => simp at h
    | cons g' rest' =>
      rcases g with ⟨base, defs⟩
      rcases g' with ⟨base', defs'⟩
      simp only [List.map_cons, List.cons.injEq, Prod.mk.injEq] at h
      obtain ⟨⟨hb, hd⟩, hrest⟩ := h
      subst hb
      have hlen : defs.length = defs'.length := by
        have := congrArg List.length hd
        simpa using this
      by_cases hl : defs.length = 1
      · have hl' : defs'.length = 1 := by omega
        simp only [assignGroups, if_pos hl, if_pos hl', List.map_append, List.map_map]
        rw [ih rest' hrest]
        have hnames : defs.map ((fun p => p.2) ∘ fun td =>
              (td, uniqueName (str "Api" ++ base) used))
            = defs'.map ((fun p => p.2) ∘ fun td =>
              (td, uniqueName (str "Api" ++ base) used)) := by
          have h1 : ∀ (l : List TypeDefinition), l.map ((fun p => p.2) ∘ fun td =>
              (td, uniqueName (str "Api" ++ base) used))
              = List.replicate l.length (uniqueName (str "Api" ++ base) used) := by
            intro l
            induction l with
            | nil => rfl
            | cons x xs ihl => simp [List.replicate, ihl]
          rw [h1, h1, hlen]
        rw [hnames]
      · have hl' : ¬ defs'.length = 1 := by omega
        simp only [assignGroups, if_neg hl, if_neg hl', List.map_append]
        obtain ⟨hm1, hm2⟩ := assignMulti_proj base defs defs' hd used
        rw [hm1, hm2, ih rest' hrest]

theorem groupsOf_proj (tds tds' : List TypeDefinition)
    (h : tds.map projNM = tds'.map projNM) :
    (groupsOf tds).map (fun g => (g.1, g.2.map projNM))
      = (groupsOf tds').map (fun g => (g.1, g.2.map projNM)) := by
  unfold groupsOf
  rw [List.map_map, List.map_map, baseKeysAux_proj tds tds' h []]
  apply List.map_congr_left
  intro b _
  simp only [Function.comp]
  rw [filter_baseOf_proj tds tds' h b]


theorem normalizeAssignments_proj (tds tds' : List TypeDefinition)
    (h : tds.map projNM = tds'.map projNM) :
    (normalizeAssignments tds).map (·.2) = (normalizeAssignments tds').map (·.2) :=
  assignGroups_proj (groupsOf tds) (groupsOf tds') (groupsOf_proj tds tds' h) []

theorem mem_baseKeysAux (tds : List TypeDefinition) :
    ∀ (seen : List Str) (td : TypeDefinition), td ∈ tds →
    baseOf td ∈ baseKeysAux seen tds ∨ baseOf td ∈ seen := by
  induction tds with
  | nil => intro seen td htd; simp at htd
  | cons x xs ih =>
    intro seen td htd
    rw [List.mem_cons] at htd
    by_cases hc : seen.contains (baseOf x) = true
    · rw [baseKeysAux, if_pos hc]
      rcases htd with h | h
      · subst h
        exact Or.inr (by simpa using hc)
      · exact ih seen td h
    · rw [baseKeysAux, if_neg hc]
      rcases htd with h | h
      · subst h
        exact Or.inl (List.mem_cons_self _ _)
      · rcases ih (baseOf x :: seen) td h with h1 | h1
        · exact Or.inl (List.mem_cons_of_mem _ h1)
        · rw [List.mem_cons] at h1
          rcases h1 with h1 | h1
          · exact Or.inl (h1 ▸ List.mem_cons_self _ _)
          · exact Or.inr h1

theorem assignMulti_complete (base : Str) (defs : List TypeDefinition) :
    ∀ (used : List Str) (td : TypeDefinition), td ∈ defs →
    ∃ n, (td, n) ∈ (assignMulti base defs used).1 := by
  induction defs with
  | nil => intro used td htd; simp at htd
  | cons x xs ih =>
    intro used td htd
    rw [List.mem_cons] at htd
    rcases htd with h | h
    · subst h
      refine ⟨uniqueName (multiCandidate base td) used, ?_⟩
      simp only [assignMulti]
      exact List.mem_cons_self _ _
    · obtain ⟨n, hn⟩ := ih (uniqueName (multiCandidate base x) used :: used) td h
      refine ⟨n, ?_⟩
      simp only [assignMulti]
      exact List.mem_cons_of_mem _ hn

theorem assignGroups_complete (gs : List (Str × List TypeDefinition)) :
    ∀ (used : List Str) (base : Str) (defs : List TypeDefinition)
      (td : TypeDefinition), (base, defs) ∈ gs → td ∈ defs →
    ∃ n, (td, n) ∈ assignGroups gs used := by
  induction gs with
  | nil => intro used base defs td hg _; simp at hg
  | cons g rest ih =>
    intro used base defs td hg htd
    rcases g with ⟨b0, d0⟩
    rw [List.mem_cons] at hg
    by_cases hlen : d0.length = 1
    · rcases hg with hg | hg
      · have hd : defs = d0 := congrArg Prod.snd hg
        subst hd
        refine ⟨uniqueName (str "Api" ++ b0) used, ?_⟩
        simp only [assignGroups, if_pos hlen, List.mem_append]
        exact Or.inl (List.mem_map.mpr ⟨td, htd, rfl⟩)
      · obtain ⟨n, hn⟩ := ih (uniqueName (str "Api" ++ b0) used :: used) base defs td hg htd
        refine ⟨n, ?_⟩
        simp only [assignGroups, if_pos hlen, List.mem_append]
        exact Or.inr hn
    · rcases hg with hg | hg
      · have hd : defs = d0 := congrArg Prod.snd hg
        have hb : base = b0 := congrArg Prod.fst hg
        subst hd
        subst hb
        obtain ⟨n, hn⟩ := assignMulti_complete base defs used td htd
        refine ⟨n, ?_⟩
        simp only [assignGroups, if_neg hlen, List.mem_append]
        exact Or.inl hn
      · obtain ⟨n, hn⟩ := ih (assignMulti b0 d0 used).2 base defs td hg htd
        refine ⟨n, ?_⟩
        simp only [assignGroups, if_neg hlen, List.mem_append]
        exact Or.inr hn

theorem normalizeAssignments_complete (tds : List TypeDefinition)
    (td : TypeDefinition) (htd : td ∈ tds) :
    ∃ n, (td, n) ∈ normalizeAssignments tds := by
  have hkey : baseOf td ∈ baseKeysAux [] tds := by
    rcases mem_baseKeysAux tds [] td htd with h | h
    · exact h
    · simp at h
  have hgrp : (baseOf td, tds.filter (fun t => baseOf t = baseOf td)) ∈ groupsOf tds :=
    List.mem_map.mpr ⟨baseOf td, hkey, rfl⟩
  have hmemf : td ∈ tds.filter (fun t => baseOf t = baseOf td) :=
    List.mem_filter.mpr ⟨htd, by simp⟩
  exact assignGroups_complete (groupsOf tds) [] (baseOf td) _ td hgrp hmemf

/-- C4: `_normalize_type_names` assigns pairwise-distinct final names; the
assignment is a deterministic function of the ordered list of (original
name, module path) attributes of the input definitions; every input
definition receives a name; and every assigned name is the rule's
candidate — the fixed prefix 'Api' plus the title-cased original name
when the normalized name is unique in the list, else 'Api' plus the
title-cased module-path tag (last one or two non-crate segments) plus the
name — possibly extended by a numeric suffix that is at least 2, chosen
as the least suffix making the name unique. -/
theorem normalize_type_names_unique_deterministic (tds : List TypeDefinition) :
    ((normalizeAssignments tds).map (·.2)).Nodup
    ∧ (∀ tds' : List TypeDefinition, tds.map projNM = tds'.map projNM →
        (normalizeAssignments tds).map (·.2) = (normalizeAssignments tds').map (·.2))
    ∧ (∀ td ∈ tds, ∃ n, (td, n) ∈ normalizeAssignments tds)
    ∧ (∀ td n, (td, n) ∈ normalizeAssignments tds →
        n = baseCandidate tds td
        ∨ ∃ j, 2 ≤ j ∧ n = baseCandidate tds td ++ natRepr j) := by
  refine ⟨(assignGroups_spec (groupsOf tds) []).1, ?_, ?_, ?_⟩
  · intro tds' h
    exact normalizeAssignments_proj tds tds' h
  · intro td htd
    exact normalizeAssignments_complete tds td htd
  · intro td n h
    exact normalizeAssignments_shape tds td n h

def c4FiltersAlters : TypeDefinition :=
  { name := str "Filters", rustPath := str "crate::alters::Filters",
    modulePath := str "crate::alters", originalName := str "filters", fields := [] }

def c4FiltersGroups : TypeDefinition :=
  { name := str "Filters", rustPath := str "crate::groups::Filters",
    modulePath := str "crate::groups", originalName := str "filters", fields := [] }

def c4FiltersAltersVariant : TypeDefinition :=
  { name := str "FiltersRenamed", rustPath := str "other::alters::Filters",
    modulePath := str "crate::alters", originalName := str "filters",
    fields := [], isEnum := true }

def c4FiltersGroupsVariant : TypeDefinition :=
  { name := str "FiltersRenamed2", rustPath := str "other::groups::Filters",
    modulePath := str "crate::groups", originalName := str "filters",
    fields := [], isEnum := true }

theorem normalize_type_names_unique_deterministic_witness :
    ((normalizeAssignments [c4FiltersAlters, c4FiltersGroups]).map (·.2)).Nodup
    ∧ (normalizeAssignments [c4FiltersAlters, c4FiltersGroups]).map (·.2)
        = (normalizeAssignments [c4FiltersAltersVariant, c4FiltersGroupsVariant]).map (·.2)
    ∧ (∃ n, (c4FiltersAlters, n) ∈ normalizeAssignments [c4FiltersAlters, c4FiltersGroups]) := by
  obtain ⟨h1, h2, h3, _⟩ :=
    normalize_type_names_unique_deterministic [c4FiltersAlters, c4FiltersGroups]
  exact ⟨h1, h2 [c4FiltersAltersVariant, c4FiltersGroupsVariant] (by decide),
    h3 c4FiltersAlters (by decide)⟩

/-!  ## C6: deep Option detection (`_contains_option`)

`parser.RustRouteParser._contains_option` recurses on strictly shorter
strings in every branch (array suffix removal, union parts, generic
parameters), so running it with a recursion budget equal to the input
length computes the Python function's answer; the budget is only a
device to make the recursion structural.  -/

/-- The anchored regex of a direct Option variant followed by optional
whitespace and an opening angle bracket. -/
def startsOptAngle (s : Str) : Bool :=
  optionNameAlts.any (fun nm =>
    strStarts s nm && strStarts ((s.drop nm.length).dropWhile isSpaceChar) (str "<"))

/-- The fullmatch regex on a generic base: exactly one of the Option
variant names. -/
def isOptionName (b : Str) : Bool := optionNameAlts.any (fun nm => b = nm)

/-- `parser.RustRouteParser._contains_option` with an explicit recursion
budget. -/
def containsOptionN : Nat → Str → Bool
  | 0, _ => false
  | Nat.succ n, rustType =>
    if rustType = [] then false
    else
      let s := strip rustType
      if startsOptAngle s then true
      else if strEnds s (str "[]") then containsOptionN n (s.take (s.length - 2))
      else if strHasChar s '|' then
        (splitOnChar '|' s).any (fun part => containsOptionN n (strip part))
      else if strHasChar s '<' && strEnds s (str ">") then
        let idx := s.findIdx (fun c => c == '<')
        let base := strip (s.take idx)
        if isOptionName base || strEnds base (str "::Option") then true
        else (splitGenericParamsP ((s.drop (idx + 1)).dropLast)).any
          (fun p => containsOptionN n p)
      else
        strHasSub s (str "::") && strStarts (lastSegment s) (str "Option")

/-- `parser.RustRouteParser._contains_option`. -/
def containsOption (rustType : Str) : Bool :=
  containsOptionN rustType.length rustType

/-!  A grammar of deeply nested Rust-like types, used to quantify over
"an Option wrapper at any nesting depth".  -/

/-- A character that may occur in a plain type name (possibly
`::`-qualified): anything except the angle/paren/comma/union specials
and whitespace. -/
def plainChar (c : Char) : Prop :=
  c ≠ '<' ∧ c ≠ '>' ∧ c ≠ ',' ∧ c ≠ '(' ∧ c ≠ ')' ∧ c ≠ '|'
    ∧ isSpaceChar c = false

/-- A non-empty plain type name. -/
def plainStr (s : Str) : Prop := s ≠ [] ∧ ∀ c ∈ s, plainChar c

instance (c : Char) : Decidable (plainChar c) := by
  unfold plainChar
  infer_instance

instance (s : Str) : Decidable (plainStr s) := by
  unfold plainStr
  infer_instance

/-- A deep Rust-like type: a plain name, an `Option<...>` wrapper, a
generic application (`Vec<...>`, `HashMap<...,...>`, or any other base),
or array notation `T[]`. -/
inductive CoreTy where
  | nm (s : Str)
  | opt (t : CoreTy)
  | app (base : Str) (args : List CoreTy)
  | arr (t : CoreTy)

mutual
/-- The raw type string a `CoreTy` denotes. -/
def renderCore : CoreTy → Str
  | .nm s => s
  | .opt t => str "Option<" ++ renderCore t ++ str ">"
  | .app b args => b ++ str "<" ++ renderArgs args ++ str ">"
  | .arr t => renderCore t ++ str "[]"

/-- Comma-space-joined rendered arguments of a generic application. -/
def renderArgs : List CoreTy → Str
  | [] => []
  | [t] => renderCore t
  | t :: rest => renderCore t ++ str ", " ++ renderArgs rest
end

mutual
/-- Whether a deep type contains an `Option` wrapper at any depth. -/
def deepOption : CoreTy → Bool
  | .nm _ => false
  | .opt _ => true
  | .app _ args => deepOptionL args
  | .arr t => deepOption t

def deepOptionL : List CoreTy → Bool
  | [] => false
  | t :: rest => deepOption t || deepOptionL rest
end

/-- Well-formedness: all names are non-empty and plain. -/
inductive WfCore : CoreTy → Prop where
  | nm {s : Str} : plainStr s → WfCore (.nm s)
  | opt {t : CoreTy} : WfCore t → WfCore (.opt t)
  | app {b : Str} {args : List CoreTy} :
      plainStr b → (∀ t ∈ args, WfCore t) → WfCore (.app b args)
  | arr {t : CoreTy} : WfCore t → WfCore (.arr t)

/-- A raw field type: either a deep type or a union `T | null`. -/
inductive RawTy where
  | core (t : CoreTy)
  | orNull (t : CoreTy)

def renderRaw : RawTy → Str
  | .core t => renderCore t
  | .orNull t => renderCore t ++ str " | null"

def deepOptionRaw : RawTy → Bool
  | .core t => deepOption t
  | .orNull t => deepOption t

def WfRaw : RawTy → Prop
  | .core t => WfCore t
  | .orNull t => WfCore t

theorem getLastD_concat (l : List Char) (c d : Char) :
    (l ++ [c]).getLastD d = c := by
  simp [List.getLastD_eq_getLast?]

theorem getLastD_mem (l : List Char) (h : l ≠ []) (d : Char) :
    l.getLastD d ∈ l := by
  rw [List.getLastD_eq_getLast?, List.getLast?_eq_getLast l h]
  exact List.getLast_mem h

theorem getLastD_append_right (a b : List Char) (h : b ≠ []) (d : Char) :
    (a ++ b).getLastD d = b.getLastD d := by
  rw [List.getLastD_eq_getLast?, List.getLastD_eq_getLast?, List.getLast?_append]
  rw [List.getLast?_eq_getLast b h]
  rfl

theorem headD_append_left (a b : List Char) (h : a ≠ []) (d : Char) :
    (a ++ b).headD d = a.headD d := by
  cases a with
  | nil => exact absurd rfl h
  | cons c t => rfl

/-- A string is unchanged by `strip` when its first and last characters
are not whitespace. -/
theorem strip_noop (p : Str) (h1 : isSpaceChar (p.headD 'x') = false)
    (h2 : isSpaceChar (p.getLastD 'x') = false) : strip p = p := by
  unfold strip
  have hd : p.dropWhile isSpaceChar = p := by
    cases p with
    | nil => rfl
    | cons c t =>
      rw [List.headD_cons] at h1
      simp [List.dropWhile_cons, h1]
  rw [hd]
  have hrev : p.reverse.dropWhile isSpaceChar = p.reverse := by
    cases hq : p.reverse with
    | nil => rfl
    | cons e r =>
      have hlast : p.getLast? = some e := by
        rw [← List.head?_reverse, hq]; rfl
      have hes : isSpaceChar e = false := by
        rw [List.getLastD_eq_getLast?, hlast] at h2
        exact h2
      rw [List.dropWhile_cons, hes]
      simp
  rw [hrev, List.reverse_reverse]

/-- Characters that are neither separators nor brackets leave the depth
state unchanged and never split. -/
theorem neutral_seg (p : Str)
    (h : ∀ c ∈ p, c ≠ '<' ∧ c ≠ '>' ∧ c ≠ '(' ∧ c ≠ ')' ∧ c ≠ ',') :
    ∀ ad pd : Int, noSplitG p ad pd = true ∧ netG p ad pd = (ad, pd) := by
  induction p with
  | nil => intro ad pd; exact ⟨rfl, rfl⟩
  | cons c rest ih =>
    intro ad pd
    have hc := h c (List.mem_cons_self _ _)
    have hrest : ∀ x ∈ rest, x ≠ '<' ∧ x ≠ '>' ∧ x ≠ '(' ∧ x ≠ ')' ∧ x ≠ ',' :=
      fun x hx => h x (List.mem_cons_of_mem _ hx)
    have hstep : depthStepG c ad pd = (ad, pd) := by
      simp [depthStepG, hc.1, hc.2.1, hc.2.2.1, hc.2.2.2.1]
    constructor
    · rw [noSplitG_step c rest ad pd (fun hcc => hc.2.2.2.2 hcc.1), hstep]
      exact (ih hrest ad pd).1
    · rw [netG, hstep]
      exact (ih hrest ad pd).2

theorem netG_append (a : Str) : ∀ (b : Str) (ad pd : Int),
    netG (a ++ b) ad pd = netG b (netG a ad pd).1 (netG a ad pd).2 := by
  induction a with
  | nil => intro b ad pd; rfl
  | cons c a2 ih =>
    intro b ad pd
    show netG (a2 ++ b) _ _ = _
    rw [ih]
    rfl

theorem noSplitG_append (a : Str) : ∀ (b : Str) (ad pd : Int),
    noSplitG a ad pd = true →
    noSplitG b (netG a ad pd).1 (netG a ad pd).2 = true →
    noSplitG (a ++ b) ad pd = true := by
  induction a with
  | nil => intro b ad pd _ h2; exact h2
  | cons c a2 ih =>
    intro b ad pd h1 h2
    have hcond : ¬(c = ',' ∧ ad = 0 ∧ pd = 0) := by
      intro hc
      rw [noSplitG, if_pos hc] at h1
      exact absurd h1 (by decide)
    rw [noSplitG_step c a2 ad pd hcond] at h1
    show noSplitG (c :: (a2 ++ b)) ad pd = true
    rw [noSplitG_step c (a2 ++ b) ad pd hcond]
    exact ih b _ _ h1 h2

theorem netG_angleOpen (ad pd : Int) : netG ['<'] ad pd = (ad + 1, pd) := by
  simp [netG, depthStepG]

theorem netG_angleClose (ad pd : Int) : netG ['>'] ad pd = (ad - 1, pd) := by
  simp [netG, depthStepG]

theorem noSplitG_angleOpen (ad pd : Int) : noSplitG ['<'] ad pd = true := by
  simp [noSplitG, depthStepG]

theorem noSplitG_angleClose (ad pd : Int) : noSplitG ['>'] ad pd = true := by
  simp [noSplitG, depthStepG]

theorem append_ne_nil_left (a b : Str) (h : a ≠ []) : a ++ b ≠ [] := by
  intro hx
  exact h (List.append_eq_nil.mp hx).1

/-- Structural facts about a rendered deep type that the
`_contains_option` walk relies on: non-empty, no whitespace at either
end, no parenthesis or union bar anywhere, and angle-balanced with no
comma at angle depth zero, from any non-negative starting depth. -/
def goodRender (p : Str) : Prop :=
  p ≠ []
  ∧ isSpaceChar (p.headD 'x') = false
  ∧ isSpaceChar (p.getLastD 'x') = false
  ∧ (∀ c ∈ p, c ≠ '(' ∧ c ≠ ')' ∧ c ≠ '|')
  ∧ (∀ ad pd : Int, 0 ≤ ad → noSplitG p ad pd = true ∧ netG p ad pd = (ad, pd))

theorem sep_facts (ad pd : Int) (had : 1 ≤ ad) :
    noSplitG (str ", ") ad pd = true ∧ netG (str ", ") ad pd = (ad, pd) := by
  have hc1 : depthStepG ',' ad pd = (ad, pd) := by simp [depthStepG]
  have hsp := neutral_seg [' '] (by decide) ad pd
  constructor
  · show noSplitG (',' :: [' ']) ad pd = true
    rw [noSplitG_step ',' [' '] ad pd (fun hx => absurd hx.2.1 (by omega)), hc1]
    exact hsp.1
  · show netG (',' :: [' ']) ad pd = (ad, pd)
    simp only [netG, hc1]
    exact hsp.2

theorem renderArgs_facts (args : List CoreTy)
    (h : ∀ t ∈ args, goodRender (renderCore t)) :
    (∀ c ∈ renderArgs args, c ≠ '(' ∧ c ≠ ')' ∧ c ≠ '|')
    ∧ (∀ ad pd : Int, 1 ≤ ad →
        noSplitG (renderArgs args) ad pd = true
        ∧ netG (renderArgs args) ad pd = (ad, pd)) := by
  induction args with
  | nil =>
    constructor
    · intro c hc
      simp [renderArgs] at hc
    · intro ad pd _
      exact ⟨rfl, rfl⟩
  | cons t rest ih =>
    cases rest with
    | nil =>
      have hg := h t (List.mem_cons_self _ _)
      constructor
      · intro c hc
        exact hg.2.2.2.1 c hc
      · intro ad pd had
        exact hg.2.2.2.2 ad pd (by omega)
    | cons q rs =>
      have hg := h t (List.mem_cons_self _ _)
      have hrest : ∀ x ∈ q :: rs, goodRender (renderCore x) :=
        fun x hx => h x (List.mem_cons_of_mem _ hx)
      obtain ⟨ihChars, ihDepth⟩ := ih hrest
      have hr : renderArgs (t :: q :: rs)
          = (renderCore t ++ str ", ") ++ renderArgs (q :: rs) := rfl
      constructor
      · intro c hc
        rw [hr] at hc
        rcases List.mem_append.mp hc with hc | hc
        · rcases List.mem_append.mp hc with hc | hc
          · exact hg.2.2.2.1 c hc
          · have hc' : c ∈ [',', ' '] := hc
            rcases List.mem_cons.mp hc' with h1 | h1
            · subst h1; exact ⟨by decide, by decide, by decide⟩
            · have h2 := List.mem_singleton.mp h1
              subst h2; exact ⟨by decide, by decide, by decide⟩
        · exact ihChars c hc
      · intro ad pd had
        have h1 := hg.2.2.2.2 ad pd (by omega)
        have hsep := sep_facts ad pd had
        have h2 := ihDepth ad pd had
        have hnetA : netG (renderCore t ++ str ", ") ad pd = (ad, pd) := by
          rw [netG_append, h1.2, hsep.2]
        have hnsA : noSplitG (renderCore t ++ str ", ") ad pd = true :=
          noSplitG_append _ _ _ _ h1.1 (by rw [h1.2]; exact hsep.1)
        constructor
        · rw [hr]
          exact noSplitG_append _ _ _ _ hnsA (by rw [hnetA]; exact h2.1)
        · rw [hr, netG_append, hnetA, h2.2]

theorem wrap_angle_good (b rt : Str) (hb : plainStr b)
    (hch : ∀ c ∈ rt, c ≠ '(' ∧ c ≠ ')' ∧ c ≠ '|')
    (hdep : ∀ ad pd : Int, 1 ≤ ad →
      noSplitG rt ad pd = true ∧ netG rt ad pd = (ad, pd)) :
    goodRender (((b ++ str "<") ++ rt) ++ str ">") := by
  refine ⟨?_, ?_, ?_, ?_, ?_⟩
  · intro hx
    have h1 : (((b ++ str "<") ++ rt) ++ str ">").getLastD 'x' = '>' :=
      getLastD_concat _ _ _
    rw [hx] at h1
    exact absurd h1 (by decide)
  · rw [headD_append_left _ _ (append_ne_nil_left _ _ (append_ne_nil_left _ _ hb.1)) 'x',
      headD_append_left _ _ (append_ne_nil_left _ _ hb.1) 'x',
      headD_append_left _ _ hb.1 'x']
    have hmem : b.headD 'x' ∈ b := by
      cases hb' : b with
      | nil => exact absurd hb' hb.1
      | cons c t => rw [List.headD_cons]; exact List.mem_cons_self _ _
    exact (hb.2 _ hmem).2.2.2.2.2.2
  · rw [show str ">" = ['>'] from rfl, getLastD_concat]
    decide
  · intro c hc
    rcases List.mem_append.mp hc with hc | hc
    · rcases List.mem_append.mp hc with hc | hc
      · rcases List.mem_append.mp hc with hc | hc
        · have := hb.2 c hc
          exact ⟨this.2.2.2.1, this.2.2.2.2.1, this.2.2.2.2.2.1⟩
        · have h1 : c = '<' := List.mem_singleton.mp hc
          subst h1; exact ⟨by decide, by decide, by decide⟩
      · exact hch c hc
    · have h1 : c = '>' := List.mem_singleton.mp hc
      subst h1; exact ⟨by decide, by decide, by decide⟩
  · intro ad pd had
    have hbseg := neutral_seg b (fun c hc => by
      have := hb.2 c hc
      exact ⟨this.1, this.2.1, this.2.2.2.1, this.2.2.2.2.1, this.2.2.1⟩) ad pd
    have hnet1 : netG (b ++ str "<") ad pd = (ad + 1, pd) := by
      rw [show str "<" = ['<'] from rfl, netG_append, hbseg.2, netG_angleOpen]
    have hns1 : noSplitG (b ++ str "<") ad pd = true := by
      rw [show str "<" = ['<'] from rfl]
      exact noSplitG_append _ _ _ _ hbseg.1
        (by rw [hbseg.2]; exact noSplitG_angleOpen ad pd)
    have hrt := hdep (ad + 1) pd (by omega)
    have hnet2 : netG ((b ++ str "<") ++ rt) ad pd = (ad + 1, pd) := by
      rw [netG_append, hnet1, hrt.2]
    have hns2 : noSplitG ((b ++ str "<") ++ rt) ad pd = true :=
      noSplitG_append _ _ _ _ hns1 (by rw [hnet1]; exact hrt.1)
    constructor
    · refine noSplitG_append _ _ _ _ hns2 ?_
      rw [hnet2, show str ">" = ['>'] from rfl]
      exact noSplitG_angleClose _ _
    · rw [netG_append, hnet2, show str ">" = ['>'] from rfl, netG_angleClose]
      simp [add_sub_cancel_right]

theorem wf_goodRender {t : CoreTy} (h : WfCore t) : goodRender (renderCore t) := by
  induction h with
  | @nm s hs =>
    refine ⟨hs.1, ?_, ?_, ?_, ?_⟩
    · have hmem : s.headD 'x' ∈ s := by
        cases hs' : s with
        | nil => exact absurd hs' hs.1
        | cons c t2 => rw [List.headD_cons]; exact List.mem_cons_self _ _
      exact (hs.2 _ hmem).2.2.2.2.2.2
    · exact (hs.2 _ (getLastD_mem s hs.1 'x')).2.2.2.2.2.2
    · intro c hc
      have := hs.2 c hc
      exact ⟨this.2.2.2.1, this.2.2.2.2.1, this.2.2.2.2.2.1⟩
    · intro ad pd _
      exact neutral_seg s (fun c hc => by
        have := hs.2 c hc
        exact ⟨this.1, this.2.1, this.2.2.2.1, this.2.2.2.2.1, this.2.2.1⟩) ad pd
  | @opt t2 ht iht =>
    have hshape : renderCore (.opt t2)
        = ((str "Option" ++ str "<") ++ renderCore t2) ++ str ">" := rfl
    rw [hshape]
    exact wrap_angle_good (str "Option") (renderCore t2) ⟨by decide, by decide⟩
      iht.2.2.2.1 (fun ad pd had => iht.2.2.2.2 ad pd (by omega))
  | @app b args hb hargs ih =>
    have hfacts := renderArgs_facts args ih
    have hshape : renderCore (.app b args)
        = ((b ++ str "<") ++ renderArgs args) ++ str ">" := rfl
    rw [hshape]
    exact wrap_angle_good b (renderArgs args) hb hfacts.1 hfacts.2
  | @arr t2 ht iht =>
    obtain ⟨hne, hh, hl, hch, hdep⟩ := iht
    have hshape : renderCore (.arr t2) = renderCore t2 ++ str "[]" := rfl
    rw [hshape]
    refine ⟨append_ne_nil_left _ _ hne, ?_, ?_, ?_, ?_⟩
    · rw [headD_append_left _ _ hne]
      exact hh
    · rw [getLastD_append_right _ _ (by decide) 'x']
      decide
    · intro c hc
      rcases List.mem_append.mp hc with hc | hc
      · exact hch c hc
      · have hc' : c ∈ ['[', ']'] := hc
        rcases List.mem_cons.mp hc' with h1 | h1
        · subst h1; exact ⟨by decide, by decide, by decide⟩
        · have h2 := List.mem_singleton.mp h1
          subst h2; exact ⟨by decide, by decide, by decide⟩
    · intro ad pd had
      have h1 := hdep ad pd had
      have hbr := neutral_seg (str "[]") (by decide) ad pd
      constructor
      · exact noSplitG_append _ _ _ _ h1.1 (by rw [h1.2]; exact hbr.1)
      · rw [netG_append, h1.2, hbr.2]

theorem sgpPAux_eq_G (s : Str) : ∀ (cur : Str) (d : Int),
    (∀ c ∈ s, c ≠ '(' ∧ c ≠ ')') →
    splitGenericParamsPAux s cur d = splitGenericParamsGAux s cur d 0 := by
  induction s with
  | nil => intro cur d _; rfl
  | cons c rest ih =>
    intro cur d h
    have hc := h c (List.mem_cons_self _ _)
    have hrest : ∀ x ∈ rest, x ≠ '(' ∧ x ≠ ')' :=
      fun x hx => h x (List.mem_cons_of_mem _ hx)
    by_cases h1 : c = '<'
    · subst h1
      rw [splitGenericParamsPAux, splitGenericParamsGAux, if_pos rfl, if_pos rfl]
      exact ih _ _ hrest
    by_cases h2 : c = '>'
    · subst h2
      rw [splitGenericParamsPAux, splitGenericParamsGAux,
        if_neg (by decide), if_pos rfl, if_neg (by decide), if_pos rfl]
      exact ih _ _ hrest
    by_cases h3 : c = ',' ∧ d = 0
    · rw [splitGenericParamsPAux, splitGenericParamsGAux,
        if_neg h1, if_neg h2, if_pos h3,
        if_neg h1, if_neg h2, if_neg hc.1, if_neg hc.2,
        if_pos (show c = ',' ∧ d = 0 ∧ (0 : Int) = 0 from ⟨h3.1, h3.2, rfl⟩)]
      rw [ih [] d hrest]
    · rw [splitGenericParamsPAux, splitGenericParamsGAux,
        if_neg h1, if_neg h2, if_neg h3,
        if_neg h1, if_neg h2, if_neg hc.1, if_neg hc.2,
        if_neg (fun hx => h3 ⟨hx.1, hx.2.1⟩)]
      exact ih _ _ hrest

/-- On strings without parentheses the parser's splitter agrees with
the generator's. -/
theorem splitGenericParamsP_eq_G (s : Str)
    (h : ∀ c ∈ s, c ≠ '(' ∧ c ≠ ')') :
    splitGenericParamsP s = splitGenericParamsG s := sgpPAux_eq_G s [] 0 h

theorem renderArgs_eq_intercalate (args : List CoreTy) :
    renderArgs args = [',', ' '].intercalate (args.map renderCore) := by
  induction args with
  | nil => simp [renderArgs, List.intercalate]
  | cons t rest ih =>
    cases rest with
    | nil => simp [renderArgs, List.intercalate]
    | cons q rs =>
      have h1 : [',', ' '].intercalate (List.map renderCore (t :: q :: rs))
          = renderCore t ++ [',', ' ']
            ++ [',', ' '].intercalate (List.map renderCore (q :: rs)) := by
        simp [List.intercalate]
      rw [show renderArgs (t :: q :: rs)
          = (renderCore t ++ str ", ") ++ renderArgs (q :: rs) from rfl,
        ih, h1]
      rfl

/-- The parser's splitter recovers exactly the rendered arguments of a
well-formed generic application. -/
theorem splitP_renderArgs (args : List CoreTy)
    (hargs : ∀ t ∈ args, WfCore t) (hne : args ≠ []) :
    splitGenericParamsP (renderArgs args) = args.map renderCore := by
  have hgood : ∀ t ∈ args, goodRender (renderCore t) :=
    fun t ht => wf_goodRender (hargs t ht)
  have hnoparen : ∀ c ∈ renderArgs args, c ≠ '(' ∧ c ≠ ')' := by
    intro c hc
    have := (renderArgs_facts args hgood).1 c hc
    exact ⟨this.1, this.2.1⟩
  rw [splitGenericParamsP_eq_G _ hnoparen]
  have hok : ∀ p ∈ args.map renderCore, okPartG p := by
    intro p hp
    obtain ⟨t, ht, hpt⟩ := List.mem_map.mp hp
    subst hpt
    obtain ⟨hne2, hh, hl, hch, hdep⟩ := wf_goodRender (hargs t ht)
    have hd := hdep 0 0 le_rfl
    exact ⟨hd.1, hd.2, strip_noop _ hh hl, hne2⟩
  have hmap : args.map renderCore ≠ [] := by
    intro hx
    exact hne (List.map_eq_nil_iff.mp hx)
  have hjoin := sgpG_join_aux (args.map renderCore) hok hmap []
    (by intro c hc; simp at hc)
  rw [List.nil_append] at hjoin
  rw [renderArgs_eq_intercalate]
  exact hjoin

theorem deepOptionL_exists (l : List CoreTy) (h : deepOptionL l = true) :
    ∃ a ∈ l, deepOption a = true := by
  induction l with
  | nil => simp [deepOptionL] at h
  | cons t rest ih =>
    rw [show deepOptionL (t :: rest) = (deepOption t || deepOptionL rest) from rfl,
      Bool.or_eq_true] at h
    rcases h with h | h
    · exact ⟨t, List.mem_cons_self _ _, h⟩
    · obtain ⟨a, ha, hd⟩ := ih h
      exact ⟨a, List.mem_cons_of_mem _ ha, hd⟩

theorem findIdx_all_false (p : Char → Bool) (l : Str)
    (h : ∀ c ∈ l, p c = false) : l.findIdx p = l.length := by
  induction l with
  | nil => rfl
  | cons c t ih =>
    rw [List.findIdx_cons, h c (List.mem_cons_self _ _)]
    show (List.findIdx p t + 1) = t.length + 1
    rw [ih (fun x hx => h x (List.mem_cons_of_mem _ hx))]

theorem mem_renderArgs_length (args : List CoreTy) (a : CoreTy) (ha : a ∈ args) :
    (renderCore a).length ≤ (renderArgs args).length := by
  induction args with
  | nil => simp at ha
  | cons t rest ih =>
    cases rest with
    | nil =>
      have h1 := List.mem_singleton.mp ha
      subst h1
      exact le_rfl
    | cons q rs =>
      have hr : renderArgs (t :: q :: rs)
          = (renderCore t ++ str ", ") ++ renderArgs (q :: rs) := rfl
      rw [hr, List.length_append, List.length_append]
      rcases List.mem_cons.mp ha with h1 | h1
      · subst h1; omega
      · have := ih h1; omega

theorem strip_append_space (p : Str) (hne : p ≠ [])
    (hh : isSpaceChar (p.headD 'x') = false)
    (hl : isSpaceChar (p.getLastD 'x') = false) : strip (p ++ [' ']) = p := by
  unfold strip
  have h1 : (p ++ [' ']).dropWhile isSpaceChar = p ++ [' '] := by
    cases p with
    | nil => exact absurd rfl hne
    | cons c t =>
      rw [List.headD_cons] at hh
      rw [show (c :: t) ++ [' '] = c :: (t ++ [' ']) from rfl]
      simp [List.dropWhile_cons, hh]
  rw [h1, List.reverse_append,
    show ([' '] : Str).reverse = [' '] from rfl,
    show ([' '] : Str) ++ p.reverse = ' ' :: p.reverse from rfl,
    List.dropWhile_cons]
  have hsp : isSpaceChar ' ' = true := by decide
  rw [hsp]
  have h2 : p.reverse.dropWhile isSpaceChar = p.reverse := by
    cases hq : p.reverse with
    | nil => rfl
    | cons e r =>
      have hlast : p.getLast? = some e := by
        rw [← List.head?_reverse, hq]; rfl
      have hes : isSpaceChar e = false := by
        rw [List.getLastD_eq_getLast?, hlast] at hl
        exact hl
      rw [List.dropWhile_cons, hes]
      simp
  simp [h2]

theorem strEnds_getLastD (s p : Str) (h : strEnds s p = true) (hp : p ≠ [])
    (d : Char) : s.getLastD d = p.getLastD d := by
  obtain ⟨pre, hpre⟩ := List.isSuffixOf_iff_suffix.mp h
  rw [← hpre, getLastD_append_right _ _ hp]

theorem len_pos_succ (S : Str) (hne : S ≠ []) (n : Nat) (hn : S.length ≤ n) :
    ∃ k, n = k + 1 := by
  cases n with
  | zero => exact absurd (List.eq_nil_of_length_eq_zero (Nat.le_zero.mp hn)) hne
  | succ k => exact ⟨k, rfl⟩

theorem deep_detect_core (t : CoreTy) (hwf : WfCore t) :
    deepOption t = true → ∀ n : Nat, (renderCore t).length ≤ n →
    containsOptionN n (renderCore t) = true := by
  induction hwf with
  | @nm s hs =>
    intro hdeep n hn
    rw [show deepOption (.nm s) = false from rfl] at hdeep
    exact absurd hdeep (by decide)
  | @opt t2 ht iht =>
    intro hdeep n hn
    have good := wf_goodRender (WfCore.opt ht)
    obtain ⟨k, hk⟩ := len_pos_succ _ good.1 n hn
    subst hk
    have hstrip : strip (renderCore (.opt t2)) = renderCore (.opt t2) :=
      strip_noop _ good.2.1 good.2.2.1
    have hpre1 : strStarts (renderCore (.opt t2)) (str "Option") = true :=
      List.isPrefixOf_iff_prefix.mpr ⟨'<' :: (renderCore t2 ++ str ">"),
        show str "Option" ++ ('<' :: (renderCore t2 ++ str ">"))
          = renderCore (.opt t2) from rfl⟩
    have hpre2 : strStarts (((renderCore (.opt t2)).drop
        (str "Option").length).dropWhile isSpaceChar) (str "<") = true := by
      rw [show renderCore (.opt t2)
          = str "Option" ++ ('<' :: (renderCore t2 ++ str ">")) from rfl,
        List.drop_left]
      rw [show List.dropWhile isSpaceChar ('<' :: (renderCore t2 ++ str ">"))
          = '<' :: (renderCore t2 ++ str ">") from by
        rw [List.dropWhile_cons, show isSpaceChar '<' = false from by decide]
        simp]
      exact List.isPrefixOf_iff_prefix.mpr ⟨renderCore t2 ++ str ">", rfl⟩
    have hstart : startsOptAngle (renderCore (.opt t2)) = true := by
      unfold startsOptAngle
      apply List.any_eq_true.mpr
      refine ⟨str "Option", List.mem_cons_self _ _, ?_⟩
      rw [Bool.and_eq_true]
      exact ⟨hpre1, hpre2⟩
    simp [containsOptionN, good.1, hstrip, hstart]
  | @arr t2 ht iht =>
    intro hdeep n hn
    have hdeep2 : deepOption t2 = true := by
      rw [show deepOption (.arr t2) = deepOption t2 from rfl] at hdeep
      exact hdeep
    have good := wf_goodRender (WfCore.arr ht)
    obtain ⟨k, hk⟩ := len_pos_succ _ good.1 n hn
    subst hk
    have hstrip : strip (renderCore (.arr t2)) = renderCore (.arr t2) :=
      strip_noop _ good.2.1 good.2.2.1
    by_cases hstart : startsOptAngle (renderCore (.arr t2)) = true
    · simp [containsOptionN, good.1, hstrip, hstart]
    · have hstart' : startsOptAngle (renderCore (.arr t2)) = false := by
        revert hstart
        cases startsOptAngle (renderCore (.arr t2)) <;> simp
      have hend : strEnds (renderCore (.arr t2)) (str "[]") = true :=
        List.isSuffixOf_iff_suffix.mpr ⟨renderCore t2, rfl⟩
      have hlen : (renderCore (.arr t2)).length = (renderCore t2).length + 2 := by
        show (renderCore t2 ++ str "[]").length = _
        rw [List.length_append]
        rfl
      have htake : (renderCore (.arr t2)).take ((renderCore (.arr t2)).length - 2)
          = renderCore t2 := by
        rw [hlen]
        show (renderCore t2 ++ str "[]").take ((renderCore t2).length + 2 - 2)
          = renderCore t2
        rw [show (renderCore t2).length + 2 - 2 = (renderCore t2).length from by omega]
        exact List.take_left _ _
      have hnk : (renderCore t2).length ≤ k := by
        have h1 : (renderCore (.arr t2)).length ≤ k + 1 := hn
        omega
      have hrec := iht hdeep2 k hnk
      simp [containsOptionN, good.1, hstrip, hstart', hend, htake, hrec]
  | @app b args hb hargs ih =>
    intro hdeep n hn
    obtain ⟨a, ha, hda⟩ := deepOptionL_exists args (by
      rw [show deepOption (.app b args) = deepOptionL args from rfl] at hdeep
      exact hdeep)
    have hne : args ≠ [] := List.ne_nil_of_mem ha
    have good := wf_goodRender (WfCore.app hb hargs)
    obtain ⟨k, hk⟩ := len_pos_succ _ good.1 n hn
    subst hk
    have hstrip : strip (renderCore (.app b args)) = renderCore (.app b args) :=
      strip_noop _ good.2.1 good.2.2.1
    by_cases hstart : startsOptAngle (renderCore (.app b args)) = true
    · simp [containsOptionN, good.1, hstrip, hstart]
    · have hstart' : startsOptAngle (renderCore (.app b args)) = false := by
        revert hstart
        cases startsOptAngle (renderCore (.app b args)) <;> simp
      have hshape : renderCore (.app b args)
          = b ++ ('<' :: (renderArgs args ++ str ">")) := by
        show ((b ++ str "<") ++ renderArgs args) ++ str ">" = _
        rw [show (str "<" : Str) = ['<'] from rfl]
        simp [List.append_assoc]
      have hlast : (renderCore (.app b args)).getLastD 'x' = '>' :=
        getLastD_concat _ _ _
      have hnoarr : strEnds (renderCore (.app b args)) (str "[]") = false := by
        cases hx : strEnds (renderCore (.app b args)) (str "[]")
        · rfl
        · exfalso
          have h1 := strEnds_getLastD _ _ hx (by decide) 'x'
          rw [hlast] at h1
          exact absurd h1 (by decide)
      have hnopipe : strHasChar (renderCore (.app b args)) '|' = false := by
        cases hx : strHasChar (renderCore (.app b args)) '|'
        · rfl
        · exfalso
          have h1 : '|' ∈ renderCore (.app b args) := List.mem_of_elem_eq_true hx
          exact (good.2.2.2.1 '|' h1).2.2 rfl
      have hlt : strHasChar (renderCore (.app b args)) '<' = true := by
        apply List.elem_iff.mpr
        exact List.mem_append_left _ (List.mem_append_left _
          (List.mem_append_right _ (List.mem_singleton.mpr rfl)))
      have hgt : strEnds (renderCore (.app b args)) (str ">") = true :=
        List.isSuffixOf_iff_suffix.mpr ⟨(b ++ str "<") ++ renderArgs args, rfl⟩
      have hcond4 : (strHasChar (renderCore (.app b args)) '<'
          && strEnds (renderCore (.app b args)) (str ">")) = true := by
        rw [Bool.and_eq_true]
        exact ⟨hlt, hgt⟩
      have hidx : (renderCore (.app b args)).findIdx (fun c => c == '<')
          = b.length := by
        rw [hshape, List.findIdx_append]
        have hb0 : b.findIdx (fun c => c == '<') = b.length :=
          findIdx_all_false _ b (fun c hc => by
            have := (hb.2 c hc).1
            simp [this])
        rw [hb0]
        simp [List.findIdx_cons]
      have hbstrip : strip b = b := by
        have hbgood := wf_goodRender (WfCore.nm hb)
        exact strip_noop _ hbgood.2.1 hbgood.2.2.1
      have htakeb : (renderCore (.app b args)).take b.length = b := by
        rw [hshape]
        exact List.take_left b _
      have hdropl : ((renderCore (.app b args)).drop (b.length + 1)).dropLast
          = renderArgs args := by
        have h1 : renderCore (.app b args)
            = (b ++ ['<']) ++ (renderArgs args ++ str ">") := by
          rw [hshape]
          simp [List.append_assoc]
        rw [h1, show b.length + 1 = (b ++ ['<']).length from by simp,
          List.drop_left, show (str ">" : Str) = ['>'] from rfl]
        exact List.dropLast_concat
      have hsplit := splitP_renderArgs args hargs hne
      have hlenS : (renderCore (.app b args)).length
          = b.length + (renderArgs args).length + 2 := by
        have h3 := congrArg List.length hshape
        rw [List.length_append, List.length_cons, List.length_append,
          show (str ">" : Str).length = 1 from rfl] at h3
        omega
      have hlen2 : (renderCore a).length ≤ k := by
        have h1 := mem_renderArgs_length args a ha
        have h2 : (renderCore (.app b args)).length ≤ k + 1 := hn
        omega
      have hrec := ih a ha hda k hlen2
      by_cases hbase : (isOptionName b || strEnds b (str "::Option")) = true
      · simp [containsOptionN, good.1, hstrip, hstart', hnoarr, hnopipe, hcond4,
          hidx, htakeb, hbstrip, hbase]
      · have hbase' : (isOptionName b || strEnds b (str "::Option")) = false := by
          revert hbase
          cases (isOptionName b || strEnds b (str "::Option")) <;> simp
        simp only [containsOptionN, if_neg good.1, hstrip, hstart', hnoarr,
          hnopipe, hcond4, hidx, htakeb, hbstrip, hbase', hdropl, hsplit]
        simp only [if_neg (show ¬(false = true) from by decide), if_pos trivial]
        apply List.any_eq_true.mpr
        exact ⟨renderCore a, List.mem_map.mpr ⟨a, ha, rfl⟩, hrec⟩

theorem deep_detect_raw (t : RawTy) (hwf : WfRaw t)
    (hdeep : deepOptionRaw t = true) :
    containsOption (renderRaw t) = true := by
  cases t with
  | core u =>
    exact deep_detect_core u hwf hdeep _ le_rfl
  | orNull u =>
    have goodu := wf_goodRender (hwf : WfCore u)
    show containsOption (renderCore u ++ str " | null") = true
    have hSne : renderCore u ++ str " | null" ≠ [] :=
      append_ne_nil_left _ _ goodu.1
    have hstrip : strip (renderCore u ++ str " | null")
        = renderCore u ++ str " | null" := by
      apply strip_noop
      · rw [headD_append_left _ _ goodu.1]
        exact goodu.2.1
      · rw [getLastD_append_right _ _ (by decide)]
        decide
    have hlastS : (renderCore u ++ str " | null").getLastD 'x' = 'l' := by
      rw [getLastD_append_right _ _ (by decide)]
      rfl
    obtain ⟨k, hk⟩ := len_pos_succ _ hSne (renderCore u ++ str " | null").length
      le_rfl
    show containsOptionN (renderCore u ++ str " | null").length
      (renderCore u ++ str " | null") = true
    rw [hk]
    by_cases hstart : startsOptAngle (renderCore u ++ str " | null") = true
    · simp [containsOptionN, hSne, hstrip, hstart]
    · have hstart' : startsOptAngle (renderCore u ++ str " | null") = false := by
        revert hstart
        cases startsOptAngle (renderCore u ++ str " | null") <;> simp
      have hnoarr : strEnds (renderCore u ++ str " | null") (str "[]") = false := by
        cases hx : strEnds (renderCore u ++ str " | null") (str "[]")
        · rfl
        · exfalso
          have h1 := strEnds_getLastD _ _ hx (by decide) 'x'
          rw [hlastS] at h1
          exact absurd h1 (by decide)
      have hpipe : strHasChar (renderCore u ++ str " | null") '|' = true := by
        apply List.elem_iff.mpr
        exact List.mem_append_right _ (by decide)
      have hS2 : renderCore u ++ str " | null"
          = (renderCore u ++ [' ']) ++ ('|' :: str " null") := by
        rw [show (str " | null" : Str) = [' '] ++ ('|' :: str " null") from rfl]
        simp [List.append_assoc]
      have hint : ['|'].intercalate [renderCore u ++ [' '], str " null"]
          = (renderCore u ++ [' ']) ++ ('|' :: str " null") := by
        simp [List.intercalate]
      have hnomem : ∀ l ∈ [renderCore u ++ [' '], str " null"], '|' ∉ l := by
        intro l hl
        rcases List.mem_cons.mp hl with h1 | h1
        · subst h1
          intro hmem
          rcases List.mem_append.mp hmem with h2 | h2
          · exact (goodu.2.2.2.1 '|' h2).2.2 rfl
          · exact absurd (List.mem_singleton.mp h2) (by decide)
        · have h2 := List.mem_singleton.mp h1
          subst h2
          intro hmem
          exact absurd hmem (by decide)
      have hsplit : splitOnChar '|' (renderCore u ++ str " | null")
          = [renderCore u ++ [' '], str " null"] := by
        show (renderCore u ++ str " | null").splitOn '|' = _
        rw [hS2, ← hint]
        exact List.splitOn_intercalate _ '|' hnomem (by simp)
      have hstripPart : strip (renderCore u ++ [' ']) = renderCore u :=
        strip_append_space _ goodu.1 goodu.2.1 goodu.2.2.1
      have hlenS : (renderCore u ++ str " | null").length
          = (renderCore u).length + 7 := by
        rw [List.length_append]
        rfl
      have hbound : (renderCore u).length ≤ k := by omega
      have hrec := deep_detect_core u hwf (show deepOption u = true from hdeep)
        k hbound
      simp [containsOptionN, hSne, hstrip, hstart', hnoarr, hpipe, hsplit,
        hstripPart, hrec]

theorem collectFieldsGo_no_flatten (tds : List TypeDefinition) (fuel : Nat)
    (fields : List FieldEntry) (h : ∀ e ∈ fields, e.isFlatten = false) :
    collectFieldsGo tds fuel fields = some (fields.map FieldEntry.toInlined) := by
  induction fields with
  | nil => simp [collectFieldsGo]
  | cons e rest ih =>
    have he : e.isFlatten = false := h e (List.mem_cons_self _ _)
    simp [collectFieldsGo, he, ih (fun x hx => h x (List.mem_cons_of_mem _ hx))]

theorem collectInlinedFields_no_flatten (tds : List TypeDefinition) (fuel : Nat)
    (td : TypeDefinition) (h : ∀ e ∈ td.fields, e.isFlatten = false) :
    collectInlinedFields tds (fuel + 1) td
      = some (td.fields.map FieldEntry.toInlined) := by
  rw [show collectInlinedFields tds (fuel + 1) td
      = collectFieldsGo tds fuel td.fields from by simp [collectInlinedFields]]
  exact collectFieldsGo_no_flatten tds fuel td.fields h

/-- The qualified-fields step of `_parse_struct_definition`: each raw
field becomes an entry whose optional flag is `_contains_option` of the
RAW (unqualified) type; the `_qualify_type` call is abstracted as a
parameter. -/
def qualifyFieldEntry (qualify : Str → Str)
    (fieldName rustType serializedName : Str) (isFlatten : Bool) : FieldEntry :=
  { fieldName := fieldName, rustType := qualify rustType,
    serializedName := serializedName,
    isOptional := containsOption rustType, isFlatten := isFlatten }

/-- The optional marker of one interface field line in
`_generate_interface`: a question mark when the collected per-field flag
or the fallback per-field check is set. -/
def optionalMarker (isOpt extraOpt : Bool) : Str :=
  if isOpt || extraOpt then str "?" else []

/-- One emitted interface field line of `_generate_interface`. -/
def interfaceFieldLine (isOpt extraOpt : Bool) (safeName tsType : Str) : Str :=
  str "  " ++ safeName ++ optionalMarker isOpt extraOpt
    ++ str ": " ++ tsType ++ str ";"

/-- One expanded-query request interface field of
`_generate_endpoint_method`: `(serialized_name, ts_field_type, is_opt)`. -/
def reqFieldOfInlined (toTs : Str → Str) (f : InlinedField) : Str × Str × Bool :=
  (f.serializedName, toTs f.rustType, f.isOptional)

/-- C6: for every well-formed raw field type that contains an Option
wrapper at any nesting depth — directly, inside `Vec`/`HashMap`/other
generic arguments, under array notation, or inside a union-like
`T | null` form — the parser's `_contains_option` returns True, so the
parsed struct field records `is_optional = True`; the type-declarations
emitter renders the `?` optional marker for every field whose flag is
set; and the expanded-query request fields carry exactly the collected
per-field flag, which for flatten-free definitions is each field's
recorded `is_optional`. -/
theorem deep_option_detected_and_propagated (t : RawTy)
    (hwf : WfRaw t) (hdeep : deepOptionRaw t = true) :
    containsOption (renderRaw t) = true
    ∧ (∀ (qualify : Str → Str) (fn ser : Str) (fl : Bool),
        (qualifyFieldEntry qualify fn (renderRaw t) ser fl).isOptional = true)
    ∧ (∀ (extraOpt : Bool) (safeName tsType : Str),
        interfaceFieldLine true extraOpt safeName tsType
          = str "  " ++ safeName ++ str "?" ++ str ": " ++ tsType ++ str ";")
    ∧ (∀ (toTs : Str → Str) (f : InlinedField),
        (reqFieldOfInlined toTs f).2.2 = f.isOptional)
    ∧ (∀ (tds : List TypeDefinition) (fuel : Nat) (td : TypeDefinition),
        (∀ e ∈ td.fields, e.isFlatten = false) →
        collectInlinedFields tds (fuel + 1) td
          = some (td.fields.map FieldEntry.toInlined)
        ∧ ∀ e : FieldEntry, (FieldEntry.toInlined e).isOptional = e.isOptional) := by
  have hmain := deep_detect_raw t hwf hdeep
  refine ⟨hmain, ?_, ?_, ?_, ?_⟩
  · intro qualify fn ser fl
    exact hmain
  · intro extraOpt safeName tsType
    simp [interfaceFieldLine, optionalMarker]
  · intro toTs f
    rfl
  · intro tds fuel td h
    exact ⟨collectInlinedFields_no_flatten tds fuel td h, fun e => rfl⟩

theorem deep_option_detected_and_propagated_witness :
    containsOption (str "Vec<Option<i64>>") = true
    ∧ (qualifyFieldEntry (fun s => s) (str "items") (str "Vec<Option<i64>>")
        (str "items") false).isOptional = true := by
  have hwf : WfRaw (RawTy.core (.app (str "Vec") [.opt (.nm (str "i64"))])) := by
    refine WfCore.app (by decide) ?_
    intro x hx
    have hx2 : x = .opt (.nm (str "i64")) := List.mem_singleton.mp hx
    subst hx2
    exact WfCore.opt (WfCore.nm (by decide))
  have h := deep_option_detected_and_propagated
    (RawTy.core (.app (str "Vec") [.opt (.nm (str "i64"))])) hwf rfl
  have hr : renderRaw (RawTy.core (.app (str "Vec") [.opt (.nm (str "i64"))]))
      = str "Vec<Option<i64>>" := rfl
  exact ⟨hr ▸ h.1, hr ▸ h.2.1 (fun s => s) (str "items") (str "items") false⟩
